import Mathlib

/-!
Verification of the dunamai version-derivation library (src/dunamai/__init__.py)
against its natural-language specification.

The Python module is shallowly embedded: pure functions become Lean functions,
raising code returns `Except String`, and Python `re` patterns are embedded as
executable matchers over `List Char` that mirror each anchored pattern
(including Python's rule that `$` also matches just before one trailing
newline, and that `.` never matches a newline).
-/

set_option maxRecDepth 4000

/-! ## Character and string utilities -/

/-- Python `$` in `re` matches at the end of the string or just before a single
trailing newline; since none of the pattern tokens used here can consume a
newline, anchored matching of `s` is equivalent to exact matching of `s` with
one trailing newline removed. -/
def stripNl (cs : List Char) : List Char :=
  if cs.getLast? = some '\n' then cs.dropLast else cs

def isDig (c : Char) : Bool := c.isDigit

/-- Decimal digit character for a value below ten. -/
def digChar (d : Nat) : Char :=
  if d = 0 then '0' else if d = 1 then '1' else if d = 2 then '2'
  else if d = 3 then '3' else if d = 4 then '4' else if d = 5 then '5'
  else if d = 6 then '6' else if d = 7 then '7' else if d = 8 then '8' else '9'

def digVal (c : Char) : Nat := c.toNat - 48

/-- Value of a big-endian list of decimal digit characters. -/
def digitsToNat (cs : List Char) : Nat :=
  cs.foldl (fun a c => 10 * a + digVal c) 0

/-- Fuel-driven decimal rendering; `charsOfNat` supplies adequate fuel. -/
def charsOfNatAux : Nat → Nat → List Char
  | 0, _ => []
  | fuel + 1, n =>
    if n < 10 then [digChar n]
    else charsOfNatAux fuel (n / 10) ++ [digChar (n % 10)]

/-- Decimal rendering of a natural number (model of Python `str` on ints ≥ 0). -/
def charsOfNat (n : Nat) : List Char := charsOfNatAux (n + 1) n

def pyStrNat (n : Nat) : String := String.mk (charsOfNat n)

/-- Model of Python `str` on `int`. -/
def pyStrInt (i : Int) : String :=
  if i < 0 then "-" ++ pyStrNat i.natAbs else pyStrNat i.toNat

/-- Model of Python `int(str)` on the inputs this module produces: an optional
sign followed by one or more decimal digits (whitespace and underscore forms
accepted by Python do not occur in this module's call sites). -/
def pyInt (cs : List Char) : Except String Int :=
  match cs with
  | '-' :: rest =>
    if rest ≠ [] ∧ rest.all isDig then .ok (-(digitsToNat rest : Int))
    else .error ("invalid literal for int: " ++ String.mk cs)
  | '+' :: rest =>
    if rest ≠ [] ∧ rest.all isDig then .ok (digitsToNat rest : Int)
    else .error ("invalid literal for int: " ++ String.mk cs)
  | _ =>
    if cs ≠ [] ∧ cs.all isDig then .ok (digitsToNat cs : Int)
    else .error ("invalid literal for int: " ++ String.mk cs)

/-- Split a character list on `'.'`, keeping empty pieces (model of
Python `"...".split(".")` / `re.split` on a dot). -/
def splitOnDot : List Char → List (List Char)
  | [] => [[]]
  | c :: rest =>
    if c = '.' then [] :: splitOnDot rest
    else
      match splitOnDot rest with
      | [] => [[c]]
      | g :: gs => (c :: g) :: gs

/-- Split on `'.'` or `'-'` (model of `re.split(r"[.-]", s)`). -/
def splitDotDash : List Char → List (List Char)
  | [] => [[]]
  | c :: rest =>
    if c = '.' ∨ c = '-' then [] :: splitDotDash rest
    else
      match splitDotDash rest with
      | [] => [[c]]
      | g :: gs => (c :: g) :: gs

/-- Join groups with `'.'` separators (inverse of `splitOnDot`). -/
def interDot : List (List Char) → List Char
  | [] => []
  | [g] => g
  | g :: gs => g ++ '.' :: interDot gs

/-! ## Styles and validation patterns (src lines 42-54, 905-923) -/

inductive Style where
  | Pep440
  | SemVer
  | Pvp
deriving DecidableEq

/-- `(\+.+)?$` tail common to the PEP 440 matcher: either nothing is left or
a `+` followed by one or more non-newline characters. -/
def pepMeta (cs : List Char) : Bool :=
  match cs with
  | [] => true
  | '+' :: rest => !rest.isEmpty && rest.all (fun c => c ≠ '\n')
  | _ => false

/-- `(\.dev\d+)?` then metadata. -/
def pepDev (cs : List Char) : Bool :=
  match cs with
  | '.' :: 'd' :: 'e' :: 'v' :: rest =>
    let ds := rest.takeWhile isDig
    if ds ≠ [] then pepMeta (rest.dropWhile isDig) else pepMeta cs
  | _ => pepMeta cs

/-- `(\.post\d+)?` then dev part. -/
def pepPost (cs : List Char) : Bool :=
  match cs with
  | '.' :: 'p' :: 'o' :: 's' :: 't' :: rest =>
    let ds := rest.takeWhile isDig
    if ds ≠ [] then pepDev (rest.dropWhile isDig) else pepDev cs
  | _ => pepDev cs

/-- `((a|b|rc)\d+)?` then post part. -/
def pepStage (cs : List Char) : Bool :=
  match cs with
  | 'a' :: rest =>
    let ds := rest.takeWhile isDig
    if ds ≠ [] then pepPost (rest.dropWhile isDig) else pepPost cs
  | 'b' :: rest =>
    let ds := rest.takeWhile isDig
    if ds ≠ [] then pepPost (rest.dropWhile isDig) else pepPost cs
  | 'r' :: 'c' :: rest =>
    let ds := rest.takeWhile isDig
    if ds ≠ [] then pepPost (rest.dropWhile isDig) else pepPost cs
  | _ => pepPost cs

/-- `(\.\d+)*` loop of the release segment, then the stage part.  The loop can
only usefully consume a dot followed by digits, so greedy consumption is
complete. -/
def pepTail : Nat → List Char → Bool
  | fuel + 1, '.' :: rest =>
    let ds := rest.takeWhile isDig
    if ds ≠ [] then pepTail fuel (rest.dropWhile isDig) else pepStage ('.' :: rest)
  | _, cs => pepStage cs

/-- `_VALID_PEP440 = ^(\d!)?\d+(\.\d+)*((a|b|rc)\d+)?(\.post\d+)?(\.dev\d+)?(\+.+)?$`. -/
def validPep440 (s : String) : Bool :=
  let cs := stripNl s.data
  let cs1 :=
    match cs with
    | d :: '!' :: rest => if isDig d then rest else cs
    | _ => cs
  let ds := cs1.takeWhile isDig
  !ds.isEmpty && pepTail cs1.length (cs1.dropWhile isDig)

/-- Character class `[a-zA-z0-9\-]` exactly as written in `_VALID_SEMVER`
(note the `A-z` range, which covers all code points between `A` and `z`). -/
def semIdChar (c : Char) : Bool :=
  ('a' ≤ c && c ≤ 'z') || ('A' ≤ c && c ≤ 'z') || c.isDigit || c == '-'

/-- `[C]+(\.[C]+)*` for a character class `p`, returning the remainder. -/
def identTail (p : Char → Bool) : Nat → List Char → Option (List Char)
  | fuel + 1, '.' :: rest =>
    let ds := rest.takeWhile p
    if ds ≠ [] then identTail p fuel (rest.dropWhile p) else some ('.' :: rest)
  | _, cs => some cs

def idents (p : Char → Bool) (cs : List Char) : Option (List Char) :=
  let ds := cs.takeWhile p
  if ds.isEmpty then none
  else identTail p cs.length (cs.dropWhile p)

/-- `_VALID_SEMVER`:
`^\d+\.\d+\.\d+(\-[C]+(\.[C]+)*)?(\+[C]+(\.[C]+)*)?$` with `C = [a-zA-z0-9\-]`. -/
def validSemver (s : String) : Bool :=
  let cs := stripNl s.data
  let d1 := cs.takeWhile isDig
  match d1.isEmpty, cs.dropWhile isDig with
  | false, '.' :: r1 =>
    let d2 := r1.takeWhile isDig
    match d2.isEmpty, r1.dropWhile isDig with
    | false, '.' :: r2 =>
      let d3 := r2.takeWhile isDig
      if d3.isEmpty then false
      else
        let r3 := r2.dropWhile isDig
        let afterPre :=
          match r3 with
          | '-' :: r4 => idents semIdChar r4
          | _ => some r3
        match afterPre with
        | none => false
        | some r5 =>
          match r5 with
          | [] => true
          | '+' :: r6 =>
            match idents semIdChar r6 with
            | some [] => true
            | _ => false
          | _ => false
    | _, _ => false
  | _, _ => false

/-- `(-[a-zA-Z0-9]+)*$` loop of the PVP pattern. -/
def pvpTail : Nat → List Char → Bool
  | fuel + 1, '-' :: rest =>
    let ds := rest.takeWhile Char.isAlphanum
    if ds ≠ [] then pvpTail fuel (rest.dropWhile Char.isAlphanum) else false
  | _, cs => cs.isEmpty

/-- `(\.\d+)*` loop of the PVP pattern, then the dashed tail. -/
def pvpDots : Nat → List Char → Bool
  | fuel + 1, '.' :: rest =>
    let ds := rest.takeWhile isDig
    if ds ≠ [] then pvpDots fuel (rest.dropWhile isDig) else false
  | _, cs => pvpTail cs.length cs

/-- `_VALID_PVP = ^\d+(\.\d+)*(-[a-zA-Z0-9]+)*$`. -/
def validPvp (s : String) : Bool :=
  let cs := stripNl s.data
  let ds := cs.takeWhile isDig
  !ds.isEmpty && pvpDots cs.length (cs.dropWhile isDig)

/-- `^0[0-9]+$`: a purely numeric segment of length at least two with a
leading zero. -/
def leadingZeroNum (seg : List Char) : Bool :=
  match stripNl seg with
  | '0' :: rest => !rest.isEmpty && rest.all isDig
  | _ => false

/-- The extra SemVer rule of `check_version` (src lines 920-923): split the
part before any `+` on `.`/`-` and look for a leading-zero numeric segment. -/
def hasLeadingZeroSeg (version : String) : Bool :=
  (splitDotDash (version.data.takeWhile (fun c => c ≠ '+'))).any leadingZeroNum

/-- `check_version` (src lines 905-923). -/
def checkVersion (version : String) (style : Style) : Except String Unit :=
  let name :=
    match style with
    | .Pep440 => "PEP 440"
    | .SemVer => "Semantic Versioning"
    | .Pvp => "PVP"
  let pattern :=
    match style with
    | .Pep440 => validPep440
    | .SemVer => validSemver
    | .Pvp => validPvp
  let failureMessage := "Version '" ++ version ++ "' does not conform to the " ++ name ++ " style"
  if !pattern version then .error failureMessage
  else if style = .SemVer && hasLeadingZeroSeg version then .error failureMessage
  else .ok ()


/-- The final re-validation shared by every built-in style path
(src lines 467-468): `check_version(out, style)` then return `out`. -/
def finishCheck (b : Except String String) (st : Style) : Except String String :=
  match b with
  | .error e => .error e
  | .ok out =>
    match checkVersion out st with
    | .error e => .error e
    | .ok _ => .ok out

/-! ## The Version data model (src lines 282-361) -/

structure Version where
  base : String
  stage : Option String
  revision : Option Int
  distance : Int
  commit : Option String
  dirty : Option Bool
  tagged_metadata : Option String
deriving DecidableEq, Repr

/-- `Version.__init__`: the `stage` argument is a pair of stage name and
optional revision, unpacked into the two fields. -/
def Version.make (base : String) (stage : Option (String × Option Int))
    (distance : Int) (commit : Option String) (dirty : Option Bool)
    (tagged_metadata : Option String) : Version :=
  match stage with
  | none => ⟨base, none, none, distance, commit, dirty, tagged_metadata⟩
  | some (s, r) => ⟨base, some s, r, distance, commit, dirty, tagged_metadata⟩

/-- The string built by `serialize_pep440` before validation
(src lines 986-1010). `metadata` entries are already strings at every call
site, so the `Union[str, int]` elements are `String`. -/
def pep440Build (base : String) (stage : Option String) (revision : Option Int)
    (post : Option Int) (dev : Option Int) (epoch : Option Int)
    (metadata : Option (List String)) : String :=
  let out1 := (match epoch with | some e => pyStrInt e ++ "!" | none => "") ++ base
  let out2 := out1 ++
    (match stage with
     | none => ""
     | some st =>
       st ++ (match revision with | none => pyStrInt 0 | some r => pyStrInt r))
  let out3 := out2 ++ (match post with | none => "" | some p => ".post" ++ pyStrInt p)
  let out4 := out3 ++ (match dev with | none => "" | some d => ".dev" ++ pyStrInt d)
  out4 ++
    (match metadata with
     | some ms => if 0 < ms.length then "+" ++ String.intercalate "." ms else ""
     | none => "")

/-- `serialize_pep440` (src lines 962-1012): build, validate, return. -/
def serializePep440 (base : String) (stage : Option String) (revision : Option Int)
    (post : Option Int) (dev : Option Int) (epoch : Option Int)
    (metadata : Option (List String)) : Except String String :=
  finishCheck (.ok (pep440Build base stage revision post dev epoch metadata)) .Pep440

/-- The string built by `serialize_semver` before validation. -/
def semverBuild (base : String) (pre : Option (List String))
    (metadata : Option (List String)) : String :=
  base ++
    (match pre with
     | some ps => if 0 < ps.length then "-" ++ String.intercalate "." ps else ""
     | none => "") ++
    (match metadata with
     | some ms => if 0 < ms.length then "+" ++ String.intercalate "." ms else ""
     | none => "")

/-- `serialize_semver` (src lines 1015-1038): build, validate, return. -/
def serializeSemver (base : String) (pre : Option (List String))
    (metadata : Option (List String)) : Except String String :=
  finishCheck (.ok (semverBuild base pre metadata)) .SemVer

/-- The string built by `serialize_pvp` before validation. -/
def pvpBuild (base : String) (metadata : Option (List String)) : String :=
  base ++
    (match metadata with
     | some ms => if 0 < ms.length then "-" ++ String.intercalate "-" ms else ""
     | none => "")

/-- `serialize_pvp` (src lines 1041-1058): build, validate, return. -/
def serializePvp (base : String) (metadata : Option (List String)) :
    Except String String :=
  finishCheck (.ok (pvpBuild base metadata)) .Pvp

/-- Python list item assignment `l[i] = v` with Python index semantics
(negative indices count from the end).  Every call from `zeroLoop` is in
range, where Python would not raise either. -/
def pySetItem (l : List Int) (i : Int) (v : Int) : List Int :=
  let j := if i < 0 then i + l.length else i
  l.set j.toNat v

/-- The zeroing loop of `bump_version`
(`i = index + 1; while i < limit: bases[i] = 0; i += 1`), with fuel bounding
the number of iterations (`bases.length` always suffices at the call site). -/
def zeroLoop (bases : List Int) (i limit : Int) : Nat → List Int
  | 0 => bases
  | fuel + 1 =>
    if i < limit then zeroLoop (pySetItem bases i 0) (i + 1) limit fuel else bases

/-- `bump_version` (src lines 1061-1082).  Python raises `IndexError` when
`bases[index]` is out of range. -/
def bumpVersion (base : String) (index : Int) : Except String String :=
  match (splitOnDot base.data).mapM pyInt with
  | .error e => .error e
  | .ok bases =>
    let n : Int := bases.length
    let j := if index < 0 then index + n else index
    if 0 ≤ j ∧ j < n then
      let bumped := bases.set j.toNat (bases.getD j.toNat 0 + 1)
      let limit : Int := if index < 0 then 0 else n
      let zeroed := zeroLoop bumped (index + 1) limit bases.length
      .ok (String.intercalate "." (zeroed.map pyStrInt))
    else .error "IndexError: list index out of range"

/-! ## Version.serialize (src lines 363-468)

The custom `format` argument is a Python `str.format` template; it is embedded
at the level of an already-parsed template: a list of literal pieces and named
substitution fields. -/

inductive FmtField where
  | base | stage | revision | distance | commit | dirty | tagged_metadata

inductive FmtPart where
  | lit (s : String)
  | field (f : FmtField)

/-- Substitution values used by the `format.format(...)` call in
`Version.serialize` (src lines 412-421), with `_blank` defaults. -/
def fieldValue (v : Version) (baseL : String) (revL : Option Int) :
    FmtField → String
  | .base => baseL
  | .stage => v.stage.getD ""
  | .revision => match revL with | none => "" | some r => pyStrInt r
  | .distance => pyStrInt v.distance
  | .commit => v.commit.getD ""
  | .dirty => if v.dirty.getD false then "dirty" else "clean"
  | .tagged_metadata => v.tagged_metadata.getD ""

def renderFormat (fmt : List FmtPart) (v : Version) (baseL : String)
    (revL : Option Int) : String :=
  String.join (fmt.map (fun p =>
    match p with
    | .lit s => s
    | .field f => fieldValue v baseL revL f))

/-- Python truthiness of `self.tagged_metadata` (`None` and `""` are falsy). -/
def tmTruthy (t : Option String) : Bool :=
  match t with
  | some s => s ≠ ""
  | none => false

/-- The bump preamble of `Version.serialize` (src lines 401-410): the bumped
base and revision are computed into locals. -/
def bumpedBaseRev (v : Version) (bump : Bool) : Except String (String × Option Int) :=
  if bump then
    match v.stage with
    | none =>
      match bumpVersion v.base (-1) with
      | .error e => .error e
      | .ok b => .ok (b, v.revision)
    | some _ =>
      .ok (v.base, some (match v.revision with | none => 2 | some r => r + 1))
  else .ok (v.base, v.revision)

/-- The `meta_parts` list of `Version.serialize` (src lines 430-437). -/
def metaParts (v : Version) (metadata : Option Bool) (dirty : Bool)
    (tagged_metadata : Bool) : List String :=
  if metadata = some false then []
  else
    (if tagged_metadata ∧ tmTruthy v.tagged_metadata
     then [v.tagged_metadata.getD ""] else []) ++
    (if (metadata = some true ∨ 0 < v.distance) ∧ v.commit.isSome
     then [v.commit.getD ""] else []) ++
    (if dirty ∧ v.dirty = some true then ["dirty"] else [])

/-- The `pre_parts` list of `Version.serialize` (src lines 439-446). -/
def preParts (v : Version) (bump : Bool) (revision : Option Int) : List String :=
  (match v.stage with
   | none => []
   | some st =>
     [st] ++ (match revision with | none => [] | some r => [pyStrInt r])) ++
  (if 0 < v.distance
   then [if bump then "pre" else "post", pyStrInt v.distance] else [])

/-- The style dispatch of `Version.serialize` (src lines 448-465). -/
def buildStyled (v : Version) (metadata : Option Bool) (dirty : Bool)
    (bump tagged_metadata : Bool) (base : String) (revision : Option Int)
    (style' : Style) : Except String String :=
  let meta_parts := metaParts v metadata dirty tagged_metadata
  match style' with
  | .Pep440 =>
    if v.distance ≤ 0 then
      serializePep440 base v.stage revision none none none (some meta_parts)
    else
      serializePep440 base v.stage revision
        (if bump then none else some v.distance)
        (some (if bump then v.distance else 0))
        none (some meta_parts)
  | .SemVer => serializeSemver base (some (preParts v bump revision)) (some meta_parts)
  | .Pvp => serializePvp base (some (preParts v bump revision ++ meta_parts))


/-- `Version.serialize`, translated with the receiver threaded through
explicitly: the method only ever writes the local variables `base` and
`revision`, never a field of `self`, so the returned receiver is the input
one.  The first component is the serialized string or the raised error. -/
def Version.serializeSt (v : Version) (metadata : Option Bool) (dirty : Bool)
    (format : Option (List FmtPart)) (style : Option Style) (bump : Bool)
    (tagged_metadata : Bool) : Except String String × Version :=
  let res : Except String String :=
    match bumpedBaseRev v bump with
    | .error e => .error e
    | .ok (base, revision) =>
      match format with
      | some f =>
        let out := renderFormat f v base revision
        match style with
        | some st =>
          (match checkVersion out st with
           | .error e => .error e
           | .ok _ => .ok out)
        | none => .ok out
      | none =>
        let style' := style.getD Style.Pep440
        finishCheck
          (buildStyled v metadata dirty bump tagged_metadata base revision style')
          style'
  (res, v)

def Version.serialize (v : Version) (metadata : Option Bool) (dirty : Bool)
    (format : Option (List FmtPart)) (style : Option Style) (bump : Bool)
    (tagged_metadata : Bool) : Except String String :=
  (Version.serializeSt v metadata dirty format style bump tagged_metadata).1

/-! ## Ordering (src lines 282, 339-361)

`__eq__`/`__lt__` receive an arbitrary Python object; a `PyObj` is either a
`Version` or some other object carrying only its type name. -/

inductive PyObj where
  | ver (v : Version)
  | nonVersion (typeName : String)

/-- Modelled from the spec: `packaging.version.parse` is an external library
(not part of this repository); per spec §4.3 its ordering on dotted-numeric
release strings is the zero-padded integer-tuple comparison.  Other input
shapes are outside the modelled domain and compare as unrelated. -/
def pkgRelease (s : String) : Option (List Nat) :=
  let gs := splitOnDot s.data
  if gs.all (fun g => !g.isEmpty && g.all isDig) then some (gs.map digitsToNat)
  else none

/-- Strict comparison of release tuples, padding the shorter with zeros: an
exhausted left side is smaller exactly when something nonzero remains on the
right, and a longer left side is never smaller than its zero padding. -/
def relLt : List Nat → List Nat → Bool
  | [], ys => ys.any (fun b => 0 < b)
  | _ :: _, [] => false
  | a :: as, b :: bs => if a < b then true else if a = b then relLt as bs else false

def pkgLt (a b : String) : Bool :=
  match pkgRelease a, pkgRelease b with
  | some x, some y => relLt x y
  | _, _ => false

/-- Python string comparison: lexicographic by code point. -/
def lexLt : List Char → List Char → Bool
  | [], [] => false
  | [], _ :: _ => true
  | _ :: _, [] => false
  | a :: as, b :: bs => if a < b then true else if a = b then lexLt as bs else false

def pyStrLt (a b : String) : Bool := lexLt a.data b.data

/-- `Version.__eq__` (src lines 339-349). -/
def Version.eqPy (self : Version) (other : PyObj) : Except String Bool :=
  match other with
  | .nonVersion t => .error ("Cannot compare Version with type " ++ t)
  | .ver o =>
    .ok (self.base == o.base && self.stage == o.stage
      && self.revision == o.revision && self.distance == o.distance
      && self.commit == o.commit && self.dirty == o.dirty)

/-- `Version.__lt__` (src lines 351-361): a conjunction of strict comparisons
of all six components, with `_blank` defaults for the optional ones. -/
def Version.ltPy (self : Version) (other : PyObj) : Except String Bool :=
  match other with
  | .nonVersion t => .error ("Cannot compare Version with type " ++ t)
  | .ver o =>
    .ok (pkgLt self.base o.base
      && pyStrLt (self.stage.getD "") (o.stage.getD "")
      && decide (self.revision.getD 0 < o.revision.getD 0)
      && decide (self.distance < o.distance)
      && pyStrLt (self.commit.getD "") (o.commit.getD "")
      && (!(self.dirty.getD false) && o.dirty.getD false))

/-- `Version.__gt__` as derived by `functools.total_ordering` from `__lt__`
and `__eq__`: `not (self < other) and self != other`. -/
def Version.gtPy (self : Version) (other : PyObj) : Except String Bool :=
  match Version.ltPy self other with
  | .error e => .error e
  | .ok l =>
    match Version.eqPy self other with
    | .error e => .error e
    | .ok e2 => .ok (!l && !e2)

/-! ## The pattern matcher `_match_version_pattern` (src lines 92-151)

A compiled regular expression is abstracted as a search function from a
candidate string to an optional match, together with flags saying which named
groups the pattern defines (`re.Match.group(name)` raises `IndexError` when
the pattern has no group of that name, independent of the matched text). -/

structure RMatch where
  base : Option String
  stage : Option String
  revision : Option String
  tagged_metadata : Option String
deriving DecidableEq, Repr

structure RPattern where
  search : String → Option RMatch
  hasBase : Bool
  hasStage : Bool
  hasRevision : Bool
  hasTagged : Bool

inductive MatchError where
  | missingBaseGroup
  | noMatchLatest (latest : String)
  | noMatchAny
  | badRevision (msg : String)
deriving DecidableEq, Repr

structure MatchedVersionPattern where
  matched_tag : String
  base : String
  stage_revision : Option (String × Option Int)
  newer_tags : List String
  tagged_metadata : Option String
deriving DecidableEq, Repr

/-- The scanning loop: sources whose search fails entirely are appended to the
newer-unmatched list; a match without a `base` group in the pattern raises the
configuration error; a match whose `base` group did not participate is skipped
without being recorded. -/
def scanSources (p : RPattern) :
    List String → List String → Except MatchError (Option (String × RMatch × List String))
  | [], _ => .ok none
  | s :: rest, newer =>
    match p.search s with
    | none => scanSources p rest (newer ++ [s])
    | some m =>
      if p.hasBase then
        match m.base with
        | some _ => .ok (some (s, m, newer))
        | none => scanSources p rest newer
      else .error .missingBaseGroup

/-- The `try: stage = ...group("stage") ... except IndexError: pass` block:
`stage_revision` and `tagged_metadata` are populated only when the pattern
defines all three of the stage, revision, and tagged_metadata groups, since a
missing one aborts the whole block. -/
def extractGroups (p : RPattern) (m : RMatch) :
    Except MatchError (Option (String × Option Int) × Option String) :=
  if p.hasStage ∧ p.hasRevision ∧ p.hasTagged then
    match m.stage with
    | none => .ok (none, m.tagged_metadata)
    | some st =>
      match m.revision with
      | none => .ok (some (st, none), m.tagged_metadata)
      | some r =>
        match pyInt r.data with
        | .error e => .error (.badRevision e)
        | .ok ri => .ok (some (st, some ri), m.tagged_metadata)
  else .ok (none, none)

/-- `_match_version_pattern`.  With `latest_source` only `sources[:1]` is
scanned; on a fruitless scan the error names `sources[0]` in latest mode. -/
def matchVersionPattern (p : RPattern) (sources : List String)
    (latest_source : Bool) : Except MatchError MatchedVersionPattern :=
  match scanSources p (if latest_source then sources.take 1 else sources) [] with
  | .error e => .error e
  | .ok none =>
    if latest_source then .error (.noMatchLatest (sources.headD ""))
    else .error .noMatchAny
  | .ok (some (s, m, newer)) =>
    match extractGroups p m with
    | .error e => .error e
    | .ok (sr, tm) => .ok ⟨s, m.base.getD "", sr, newer, tm⟩

/-! ## The default `_VERSION_PATTERN` (src lines 34-39) as a concrete matcher

`^v(?P<base>\d+(\.\d+)*)(-?((?P<stage>[a-zA-Z]+)\.?(?P<revision>\d+)?))?(\+(?P<tagged_metadata>.+))?$`

The embedding resolves the pattern's limited backtracking explicitly: greedy
consumption in `base` is complete because no later token can start with the
rejected character, and the `\.?(\d+)?` alternatives after the stage are tried
in the regular expression's greedy order. -/

/-- `(\.\d+)*` of the base group, returning consumed and remaining input. -/
def baseTail : Nat → List Char → (List Char × List Char)
  | fuel + 1, '.' :: rest =>
    let ds := rest.takeWhile isDig
    if ds ≠ [] then
      let (a, b) := baseTail fuel (rest.dropWhile isDig)
      ('.' :: (ds ++ a), b)
    else ([], '.' :: rest)
  | _, cs => ([], cs)

/-- `(\+(?P<tagged_metadata>.+))?$`. -/
def vpatEnd (cs : List Char) : Option (Option String) :=
  match cs with
  | [] => some none
  | '+' :: rest =>
    if rest ≠ [] ∧ rest.all (fun c => c ≠ '\n') then some (some (String.mk rest))
    else none
  | _ => none

/-- `\.?(?P<revision>\d+)?` followed by the metadata tail, alternatives in
greedy order. -/
def vpatAfterStage (stage : List Char) (cs : List Char) :
    Option (Option String × Option String × Option String) :=
  (match cs with
   | '.' :: r1 =>
     let ds := r1.takeWhile isDig
     (if ds ≠ [] then
        (vpatEnd (r1.dropWhile isDig)).map
          (fun tm => (some (String.mk stage), some (String.mk ds), tm))
      else none) <|>
     (vpatEnd r1).map (fun tm => (some (String.mk stage), none, tm))
   | _ => none) <|>
  (let ds := cs.takeWhile isDig
   if ds ≠ [] then
     (vpatEnd (cs.dropWhile isDig)).map
       (fun tm => (some (String.mk stage), some (String.mk ds), tm))
   else none) <|>
  (vpatEnd cs).map (fun tm => (some (String.mk stage), none, tm))

/-- `(-?((?P<stage>[a-zA-Z]+)\.?(?P<revision>\d+)?))?` followed by the
metadata tail: with the leading dash, without it, or with the whole group
absent. -/
def vpatStage (cs : List Char) :
    Option (Option String × Option String × Option String) :=
  (match cs with
   | '-' :: r =>
     let ls := r.takeWhile Char.isAlpha
     if ls ≠ [] then vpatAfterStage ls (r.dropWhile Char.isAlpha) else none
   | _ => none) <|>
  (let ls := cs.takeWhile Char.isAlpha
   if ls ≠ [] then vpatAfterStage ls (cs.dropWhile Char.isAlpha) else none) <|>
  (vpatEnd cs).map (fun tm => (none, none, tm))

def defaultSearch (s : String) : Option RMatch :=
  match stripNl s.data with
  | 'v' :: cs =>
    let ds := cs.takeWhile isDig
    if ds.isEmpty then none
    else
      let (dots, rest) := baseTail cs.length (cs.dropWhile isDig)
      match vpatStage rest with
      | none => none
      | some (st, rev, tm) => some ⟨some (String.mk (ds ++ dots)), st, rev, tm⟩
  | _ => none

def defaultPattern : RPattern := ⟨defaultSearch, true, true, true, true⟩

/-! ## Round-trip parsing (claim C2)

Modelled from the spec: this snapshot's `src` has no `Version.parse` and no
`epoch` field on `Version`; spec §3 gives `Version` an optional non-negative
`epoch` and §4.3 describes a round-trip `parse(text)` recovering base, stage,
revision, distance, commit, dirty/clean tokens, tagged_metadata, and a leading
`N!` epoch, with unparseable input becoming a literal base, never raising.
The serializer side reuses the `serialize_pep440` embedding from `src` (which
already accepts an epoch argument) applied with `Version.serialize`'s default
arguments, as the spec's round-trip law `parse(v.serialize()) == v` does. -/

structure VersionE where
  base : String
  stage : Option String
  revision : Option Int
  distance : Int
  commit : Option String
  dirty : Option Bool
  tagged_metadata : Option String
  epoch : Option Int
deriving DecidableEq, Repr

/-- `Version(text)`: every field other than the base takes its constructor
default. -/
def VersionE.literal (text : String) : VersionE :=
  ⟨text, none, none, 0, none, none, none, none⟩

/-- Modelled from the spec: default-argument serialization of a `Version`
carrying an epoch — the body of `Version.serialize` specialized to
`metadata=None, dirty=False, format=None, style=None (→ PEP 440),
bump=False, tagged_metadata=False`, with the epoch passed through to
`serialize_pep440`. -/
def serializeE (v : VersionE) : Except String String :=
  let meta_parts : List String :=
    if 0 < v.distance ∧ v.commit.isSome then [v.commit.getD ""] else []
  let built :=
    if v.distance ≤ 0 then
      serializePep440 v.base v.stage v.revision none none v.epoch (some meta_parts)
    else
      serializePep440 v.base v.stage v.revision (some v.distance) (some 0)
        v.epoch (some meta_parts)
  match built with
  | .error e => .error e
  | .ok out =>
    match checkVersion out .Pep440 with
    | .error e => .error e
    | .ok _ => .ok out

def isHexLower (c : Char) : Bool := c.isDigit || ('a' ≤ c && c ≤ 'f')

/-- A `dNN` metadata segment: distance per spec §4.3. -/
def dNNform (seg : List Char) : Bool :=
  match seg with
  | 'd' :: rest => !rest.isEmpty && rest.all isDig
  | _ => false

/-- A `gHEX` metadata segment: commit per spec §4.3. -/
def gHexForm (seg : List Char) : Bool :=
  match seg with
  | 'g' :: rest => !rest.isEmpty && rest.all isHexLower
  | _ => false

structure MetaInfo where
  mDist : Option Nat
  mCommit : Option String
  mDirty : Option Bool
  mTagged : Option String

/-- Classify one metadata segment per spec §4.3: `dirty`/`clean` literals, a
leading integer or `dNN` segment as distance, `gHEX` or bare hex as commit,
anything else as tagged metadata. -/
def classifySeg (acc : MetaInfo) (seg : List Char) : MetaInfo :=
  if seg = ['d', 'i', 'r', 't', 'y'] then { acc with mDirty := some true }
  else if seg = ['c', 'l', 'e', 'a', 'n'] then { acc with mDirty := some false }
  else if !seg.isEmpty && seg.all isDig then
    { acc with mDist := some (digitsToNat seg) }
  else if dNNform seg then { acc with mDist := some (digitsToNat seg.tail) }
  else if gHexForm seg then { acc with mCommit := some (String.mk seg.tail) }
  else if !seg.isEmpty && seg.all isHexLower then
    { acc with mCommit := some (String.mk seg) }
  else { acc with mTagged := some (String.mk seg) }

/-- Metadata segments; an empty identifier makes the input unparseable. -/
def parseMeta (segs : List (List Char)) : Option MetaInfo :=
  if segs.any List.isEmpty then none
  else some (segs.foldl classifySeg ⟨none, none, none, none⟩)

/-- `cs = tag ++ r`? Return the remainder `r`. -/
def stripLead : List Char → List Char → Option (List Char)
  | [], cs => some cs
  | _, [] => none
  | t :: ts, c :: cs => if t = c then stripLead ts cs else none

/-- Pop a trailing `tag` ++ digits segment (for `.postN` / `.devN`). -/
def popNamed (tag : List Char) (segs : List (List Char)) :
    Option Nat × List (List Char) :=
  match segs.reverse with
  | lst :: restRev =>
    match stripLead tag lst with
    | some ds =>
      if !ds.isEmpty && ds.all isDig then (some (digitsToNat ds), restRev.reverse)
      else (none, segs)
    | none => (none, segs)
  | [] => (none, segs)

/-- Leading `N!` epoch inside the first segment. -/
def splitEpoch (s0 : List Char) : Option Int × List Char :=
  let ds := s0.takeWhile isDig
  match s0.dropWhile isDig with
  | '!' :: rest => if ds.isEmpty then (none, s0) else ((digitsToNat ds : Int), rest)
  | _ => (none, s0)

/-- Stage letters and revision digits glued to the last release segment; only
the canonical PEP 440 stages the serializer emits are recognized. -/
def parseStagePart (r : List Char) : Option (String × Nat) :=
  let ls := r.takeWhile Char.isAlpha
  let ds := r.dropWhile Char.isAlpha
  if (ls = ['a'] ∨ ls = ['b'] ∨ ls = ['r', 'c']) ∧ ds ≠ [] ∧ ds.all isDig then
    some (String.mk ls, digitsToNat ds)
  else none

structure MainInfo where
  mEpoch : Option Int
  mBase : String
  mStage : Option String
  mRev : Option Int
  mPost : Option Nat

/-- All-digit release segments with an optional stage glued to the last one:
recover the base string and the stage name and revision. -/
def parseBase (alls : List (List Char)) :
    Option (String × Option String × Option Int) :=
  match alls.reverse with
  | [] => none
  | lst :: iniRev =>
    let ini := iniRev.reverse
    if ini.all (fun g => !g.isEmpty && g.all isDig) then
      let d := lst.takeWhile isDig
      let r := lst.dropWhile isDig
      if d.isEmpty then none
      else
        let base := String.mk (interDot (ini ++ [d]))
        if r.isEmpty then some (base, none, none)
        else
          match parseStagePart r with
          | some (sn, rv) => some (base, some sn, some (rv : Int))
          | none => none
    else none

/-- Parse the part before any `+`, already split on dots: trailing `devN` and
`postN` markers, a leading epoch, then the release segments and stage.  The
serializer's `.dev` marker value is a constant `0`; distance is recovered
from `postN`. -/
def parseMain (segs : List (List Char)) : Option MainInfo :=
  let (_, segs1) := popNamed ['d', 'e', 'v'] segs
  let (post, segs2) := popNamed ['p', 'o', 's', 't'] segs1
  match segs2 with
  | [] => none
  | s0 :: rest =>
    let (ep, s0h) := splitEpoch s0
    match parseBase (s0h :: rest) with
    | none => none
    | some (base, sn, rv) => some ⟨ep, base, sn, rv, post⟩

/-- The grammar side of the round-trip parser. -/
def parseCore (text : String) : Option VersionE :=
  let cs := text.data
  let main := cs.takeWhile (fun c => c ≠ '+')
  let rest := cs.dropWhile (fun c => c ≠ '+')
  match parseMain (splitOnDot main) with
  | none => none
  | some mi =>
    let msegs : List (List Char) :=
      match rest with
      | [] => []
      | _ :: metaCs => splitOnDot metaCs
    match parseMeta msegs with
    | none => none
    | some info =>
      some ⟨mi.mBase, mi.mStage, mi.mRev,
        (match mi.mPost with
         | some p => (p : Int)
         | none =>
           match info.mDist with
           | some d2 => (d2 : Int)
           | none => 0),
        info.mCommit, info.mDirty, info.mTagged, mi.mEpoch⟩

/-- Modelled from the spec: `Version.parse` — unparseable input becomes a
literal base and the function never raises (it is total). -/
def VersionE.parse (text : String) : VersionE :=
  match parseCore text with
  | some v => v
  | none => VersionE.literal text

/-- Release segment grammar `\d+(\.\d+)*` for the base field. -/
def baseOk (base : String) : Bool :=
  (splitOnDot base.data).all (fun g => !g.isEmpty && g.all isDig)

/-- A commit identifier that survives metadata classification unchanged:
non-empty lowercase hex that is neither a bare integer nor a `dNN` segment. -/
def commitOk (c : String) : Bool :=
  !c.data.isEmpty && c.data.all isHexLower && !(c.data.all isDig)
    && !(dNNform c.data)

/-- "Without ambiguous metadata": the versions whose default serialization
loses nothing.  The default serialization drops the commit when distance is
zero, never emits the dirty flag or the tagged metadata, normalizes a missing
revision to `0`, and emits stage names verbatim (only `a`/`b`/`rc` are valid
PEP 440), so those fields are constrained accordingly. -/
def unambiguousE (v : VersionE) : Bool :=
  baseOk v.base &&
  (match v.stage, v.revision with
   | none, none => true
   | some s, some r => (s = "a" ∨ s = "b" ∨ s = "rc") && decide (0 ≤ r)
   | _, _ => false) &&
  decide (0 ≤ v.distance) &&
  (match v.commit with
   | none => true
   | some c => commitOk c && decide (0 < v.distance)) &&
  v.dirty == none && v.tagged_metadata == none &&
  (match v.epoch with
   | none => true
   | some e => decide (0 ≤ e))

/-! ## Reference functions used in theorem statements -/

def zeroAll (l : List Int) : List Int := l.map (fun _ => 0)

/-- Keep the first `i` entries, zero the rest. -/
def zeroFrom : List Int → Nat → List Int
  | l, 0 => zeroAll l
  | [], _ + 1 => []
  | x :: xs, i + 1 => x :: zeroFrom xs i

/-- Increment position `j` and zero every position strictly after it. -/
def bumpAt (parts : List Int) (j : Nat) : List Int :=
  zeroFrom (parts.set j (parts.getD j 0 + 1)) (j + 1)

/-- The integer list `bump_version` obtains from a base string (split on dots,
each piece through `int`), when that does not raise. -/
def releaseInts (s : String) : Option (List Int) :=
  match (splitOnDot s.data).mapM pyInt with
  | .ok l => some l
  | .error _ => none

/-- A candidate the matcher accepts: its search succeeds with a participating
`base` group. -/
def acceptsP (p : RPattern) (t : String) : Prop :=
  ∃ m b, p.search t = some m ∧ m.base = some b

/-- A candidate the matcher does not accept: no match at all, or a match whose
`base` group did not participate. -/
def rejectsP (p : RPattern) (t : String) : Prop :=
  p.search t = none ∨ ∃ m, p.search t = some m ∧ m.base = none

/-! ## Scaffolding for the round-trip proof -/

/-- Append `e` to the last group of a segment list. -/
def attachLast (e : List Char) : List (List Char) → List (List Char)
  | [] => [e]
  | [g] => [g ++ e]
  | g :: gs => g :: attachLast e gs

/-- Characters of an optional epoch marker `N!`. -/
def epChars : Option Nat → List Char
  | none => []
  | some e => charsOfNat e ++ ['!']

/-- Characters of an optional stage marker, e.g. `rc2`. -/
def stgChars : Option (String × Nat) → List Char
  | none => []
  | some (nm, r) => nm.data ++ charsOfNat r

/-- Dot-separated segments of an optional `.postN.dev0` tail. -/
def postSegs : Option Nat → List (List Char)
  | none => []
  | some d => [['p', 'o', 's', 't'] ++ charsOfNat d, ['d', 'e', 'v', '0']]

/-- Characters of an optional `.postN.dev0` tail. -/
def pdChars : Option Nat → List Char
  | none => []
  | some d => ('.' :: (['p', 'o', 's', 't'] ++ charsOfNat d)) ++ ('.' :: ['d', 'e', 'v', '0'])

/-- Characters of an optional `+commit` metadata tail. -/
def metaChars : Option (List Char) → List Char
  | none => []
  | some c => '+' :: c

/-- The dot-separated segments of a serialized version's pre-`+` part, given
the base's own segments `bg`. -/
def expSegs (ep : Option Nat) (stg : Option (String × Nat)) (post : Option Nat)
    (bg : List (List Char)) : List (List Char) :=
  (match attachLast (stgChars stg) bg with
   | [] => []
   | g :: gs => (epChars ep ++ g) :: gs) ++ postSegs post

/-! ## Theorems for the claims -/


/-- C10: `Version.serialize` never mutates the `Version` it is called on: for
every combination of arguments (any metadata/dirty flags, any custom format,
any style, bump on or off), the receiver returned by the state-threaded
translation of the method is the input receiver, because the bumped base and
revision are computed into local variables only. -/
theorem serialize_never_mutates (v : Version) (metadata : Option Bool)
    (dirty : Bool) (format : Option (List FmtPart)) (style : Option Style)
    (bump : Bool) (tagged_metadata : Bool) :
    (Version.serializeSt v metadata dirty format style bump tagged_metadata).2 = v :=
  rfl

/-- C9: there exist unequal Versions that are mutually incomparable under
`__lt__`: for `v1 = Version("1.0.0")` and `v2 = Version("2.0.0")` with all
other fields default, `v1 == v2` is false, yet both `v1 < v2` and `v2 < v1`
are false, because `__lt__` requires all six field comparisons to be strictly
less simultaneously. -/
theorem incomparable_versions_exist :
    Version.eqPy ⟨"1.0.0", none, none, 0, none, none, none⟩
        (.ver ⟨"2.0.0", none, none, 0, none, none, none⟩) = .ok false ∧
    Version.ltPy ⟨"1.0.0", none, none, 0, none, none, none⟩
        (.ver ⟨"2.0.0", none, none, 0, none, none, none⟩) = .ok false ∧
    Version.ltPy ⟨"2.0.0", none, none, 0, none, none, none⟩
        (.ver ⟨"1.0.0", none, none, 0, none, none, none⟩) = .ok false :=
  ⟨rfl, rfl, rfl⟩

/-- C4 counterexample: the claim asserts `Version("0.2.0") > Version("0.10.0")`
is false, but the `__gt__` derived by `functools.total_ordering` from the
all-fields-conjunction `__lt__` returns True for it (not less, not equal). -/
theorem version_gt_counterexample :
    Version.gtPy ⟨"0.2.0", none, none, 0, none, none, none⟩
      (.ver ⟨"0.10.0", none, none, 0, none, none, none⟩) = .ok true :=
  rfl

/-- C4 amended: `__eq__` compares the six fields directly and `__lt__` compares
them with blank defaults, both raising a type error against a non-Version; the
base comparison inside `__lt__` is dotted-numeric (packaging-style), not
lexicographic, so `parse("0.2.0") < parse("0.10.0")` even though the string
`"0.10.0"` sorts below `"0.2.0"` lexicographically; but because `__lt__`
conjoins all six strict comparisons, versions differing only in base are never
`__lt__`-related, and the total_ordering-derived `>` returns True in both
directions for such a pair. -/
theorem version_ordering_spec :
    Version.eqPy ⟨"0.1.0", none, none, 0, none, none, none⟩ (.nonVersion "str") =
      .error "Cannot compare Version with type str" ∧
    Version.ltPy ⟨"0.1.0", none, none, 0, none, none, none⟩ (.nonVersion "str") =
      .error "Cannot compare Version with type str" ∧
    pkgLt "0.2.0" "0.10.0" = true ∧
    pkgLt "0.10.0" "0.2.0" = false ∧
    pyStrLt "0.10.0" "0.2.0" = true ∧
    Version.ltPy ⟨"0.2.0", none, none, 0, none, none, none⟩
      (.ver ⟨"0.10.0", none, none, 0, none, none, none⟩) = .ok false ∧
    Version.gtPy ⟨"0.10.0", none, none, 0, none, none, none⟩
      (.ver ⟨"0.2.0", none, none, 0, none, none, none⟩) = .ok true ∧
    Version.gtPy ⟨"0.2.0", none, none, 0, none, none, none⟩
      (.ver ⟨"0.10.0", none, none, 0, none, none, none⟩) = .ok true :=
  ⟨rfl, rfl, rfl, rfl, rfl, rfl, rfl, rfl⟩

/-- C6 counterexample: the claim asserts PEP 440 serialization aliases
`alpha → a` so that `Version("0.1.0", stage=("alpha", 1)).serialize()` returns
`"0.1.0a1"`; in fact no aliasing exists and the verbatim `"0.1.0alpha1"` fails
the style validation, so the call raises. -/
theorem pep440_stage_alias_counterexample :
    Version.serialize ⟨"0.1.0", some "alpha", some 1, 0, none, none, none⟩
      none false none none false false =
      .error "Version '0.1.0alpha1' does not conform to the PEP 440 style" :=
  rfl

/-- C6 amended: serialization preserves the stage name verbatim in every
style; since PEP 440 validation only admits `a`/`b`/`rc`, a stage of `alpha`
serializes under PEP 440 only as an error, while the canonical `a` yields
`0.1.0a1`, and SemVer/PVP emit `alpha` verbatim. -/
theorem stage_names_kept_verbatim :
    Version.serialize ⟨"0.1.0", some "a", some 1, 0, none, none, none⟩
      none false none none false false = .ok "0.1.0a1" ∧
    Version.serialize ⟨"0.1.0", some "alpha", some 1, 0, none, none, none⟩
      none false none none false false =
      .error "Version '0.1.0alpha1' does not conform to the PEP 440 style" ∧
    Version.serialize ⟨"0.1.0", some "alpha", some 1, 0, none, none, none⟩
      none false none (some .SemVer) false false = .ok "0.1.0-alpha.1" ∧
    Version.serialize ⟨"0.1.0", some "alpha", some 1, 0, none, none, none⟩
      none false none (some .Pvp) false false = .ok "0.1.0-alpha-1" :=
  ⟨rfl, rfl, rfl, rfl⟩

/-- Helper: the shared final validation returns a string only when that exact
string passes `check_version` for the same style. -/
theorem finishCheck_ok {b : Except String String} {st : Style} {s : String}
    (h : finishCheck b st = .ok s) : checkVersion s st = .ok () := by
  cases b with
  | error e => simp [finishCheck] at h
  | ok out =>
    cases hc : checkVersion out st with
    | error e => simp [finishCheck, hc] at h
    | ok u =>
      cases u
      simp [finishCheck, hc] at h
      subst h
      exact hc

/-- C1: for every `Version` and every built-in style, if `serialize` (with no
custom format) returns a string rather than raising, then `check_version` on
that string and style does not raise: every non-custom-format serialization
path validates its own output before returning. -/
theorem serialize_validates_output (v : Version) (metadata : Option Bool)
    (dirty : Bool) (bump tagged_metadata : Bool) (S : Style) (s : String)
    (h : Version.serialize v metadata dirty none (some S) bump tagged_metadata = .ok s) :
    checkVersion s S = .ok () := by
  simp only [Version.serialize, Version.serializeSt] at h
  cases hb : bumpedBaseRev v bump with
  | error e => rw [hb] at h; simp at h
  | ok p =>
    obtain ⟨base, revision⟩ := p
    rw [hb] at h
    simp only [Option.getD_some] at h
    exact finishCheck_ok h

/-- C1 witness. -/
theorem serialize_validates_output_witness :
    Version.serialize ⟨"0.1.0", none, none, 0, none, none, none⟩
      none false none (some .Pep440) false false = .ok "0.1.0" ∧
    checkVersion "0.1.0" .Pep440 = .ok () :=
  ⟨rfl, serialize_validates_output ⟨"0.1.0", none, none, 0, none, none, none⟩
    none false false false .Pep440 "0.1.0" rfl⟩

/-- C7: `check_version` rejects, for SemVer only, any version whose pre-`+`
portion, split on `.`/`-`, contains a purely-numeric leading-zero segment:
every string with such a segment fails the SemVer check, and concretely
`check_version("0.01.0", SemVer)` raises while the PEP 440 (and PVP) checks
accept the same string. -/
theorem semver_leading_zero_spec :
    (∀ s : String, hasLeadingZeroSeg s = true → (checkVersion s .SemVer).isOk = false) ∧
    checkVersion "0.01.0" .SemVer =
      .error "Version '0.01.0' does not conform to the Semantic Versioning style" ∧
    checkVersion "0.01.0" .Pep440 = .ok () ∧
    checkVersion "0.01.0" .Pvp = .ok () := by
  refine ⟨?_, rfl, rfl, rfl⟩
  intro s h
  unfold checkVersion
  cases hv : validSemver s
  · simp [hv, Except.isOk, Except.toBool]
  · simp [hv, h, Except.isOk, Except.toBool]

/-- C7 witness. -/
theorem semver_leading_zero_spec_witness :
    hasLeadingZeroSeg "0.01.0" = true ∧ (checkVersion "0.01.0" .SemVer).isOk = false :=
  ⟨rfl, semver_leading_zero_spec.1 "0.01.0" rfl⟩

/-- Helper: zeroing past the end changes nothing. -/
theorem zeroFrom_of_le (l : List Int) (i : Nat) (h : l.length ≤ i) :
    zeroFrom l i = l := by
  induction l generalizing i with
  | nil => cases i <;> simp [zeroFrom, zeroAll]
  | cons x xs ih =>
    cases i with
    | zero => simp at h
    | succ i' => simp only [zeroFrom]; rw [ih i' (by simpa using h)]

/-- Helper: setting position `i` to zero then zeroing from `i+1` is zeroing
from `i`. -/
theorem set_zeroFrom (l : List Int) (i : Nat) (h : i < l.length) :
    zeroFrom (l.set i 0) (i + 1) = zeroFrom l i := by
  induction l generalizing i with
  | nil => simp at h
  | cons x xs ih =>
    cases i with
    | zero => simp [zeroFrom, zeroAll]
    | succ i' =>
      simp only [List.set, zeroFrom]
      rw [ih i' (by simpa using h)]

/-- Helper: the zeroing loop with a non-negative start and the list length as
limit zeroes everything from the start position on. -/
theorem zeroLoop_nonneg (fuel : Nat) :
    ∀ (bases : List Int) (i : Nat) (limit : Int),
      limit = (bases.length : Int) → bases.length ≤ i + fuel →
      zeroLoop bases (i : Int) limit fuel = zeroFrom bases i := by
  induction fuel with
  | zero =>
    intro bases i limit hl hf
    simp only [zeroLoop]
    exact (zeroFrom_of_le _ _ (by omega)).symm
  | succ f ih =>
    intro bases i limit hl hf
    simp only [zeroLoop]
    by_cases hi : (i : Int) < limit
    · rw [if_pos hi]
      have hlen : i < bases.length := by omega
      have hps : pySetItem bases (i : Int) 0 = bases.set i 0 := by
        unfold pySetItem
        rw [if_neg (by omega)]
        simp
      rw [hps]
      have hcast : ((i : Int) + 1) = (((i + 1 : Nat)) : Int) := by push_cast; ring
      rw [hcast, ih (bases.set i 0) (i + 1) limit (by simpa using hl) (by simp; omega)]
      exact set_zeroFrom bases i hlen
    · rw [if_neg hi]
      exact (zeroFrom_of_le _ _ (by omega)).symm

/-- Helper: the zeroing loop entered with a negative index (limit `0`) zeroes
the last `k` positions through Python's negative-index wraparound. -/
theorem zeroLoop_neg (fuel : Nat) :
    ∀ (bases : List Int) (k : Nat),
      k ≤ bases.length → k ≤ fuel →
      zeroLoop bases (-(k : Int)) 0 fuel = zeroFrom bases (bases.length - k) := by
  induction fuel with
  | zero =>
    intro bases k hk hf
    have : k = 0 := by omega
    subst this
    simp only [zeroLoop]
    exact (zeroFrom_of_le _ _ (by omega)).symm
  | succ f ih =>
    intro bases k hk hf
    cases k with
    | zero =>
      simp only [zeroLoop]
      rw [if_neg (by omega)]
      exact (zeroFrom_of_le _ _ (by omega)).symm
    | succ k' =>
      simp only [zeroLoop]
      rw [if_pos (by push_cast; omega)]
      have hps :
          pySetItem bases (-(((k' + 1 : Nat)) : Int)) 0 =
            bases.set (bases.length - (k' + 1)) 0 := by
        unfold pySetItem
        rw [if_pos (by push_cast; omega)]
        have h2 : ((-(((k' + 1 : Nat)) : Int)) + (bases.length : Int)).toNat =
            bases.length - (k' + 1) := by omega
        simp only [h2]
      rw [hps]
      have harg : (-(((k' + 1 : Nat)) : Int) + 1) = -((k' : Nat) : Int) := by
        push_cast; ring
      rw [harg, ih (bases.set (bases.length - (k' + 1)) 0) k' (by simp; omega) (by omega)]
      rw [List.length_set]
      have h1 : bases.length - k' = (bases.length - (k' + 1)) + 1 := by omega
      rw [h1]
      exact set_zeroFrom bases _ (by omega)

/-- C8 counterexample: the claim restricts zeroing to non-negative indices,
but the zeroing loop also runs for negative indices other than `-1` through
Python negative-index wraparound: `bump_version("1.2.3", -2)` returns
`"1.3.0"`, not the claim's untouched `"1.3.3"`. -/
theorem bump_version_negative_counterexample :
    bumpVersion "1.2.3" (-2) = .ok "1.3.0" := rfl

/-- C8 amended: `bump_version` increments the base component at the given
Python-style index and zeroes every position strictly to the right of the
resolved target for every valid index, negative or not (for `-1` there is
nothing to the right); an index out of the Python range raises an index-range
error, so `bump_version("1.2.3", index=3)` raises since only indices `0`-`2`
(and `-1`-`-3`) are valid for a three-component base; concretely
`bump_version("1.2.3")` gives `"1.2.4"` and `bump_version("1.2.3", 0)` gives
`"2.0.0"`. -/
theorem bump_version_spec :
    bumpVersion "1.2.3" (-1) = .ok "1.2.4" ∧
    bumpVersion "1.2.3" 0 = .ok "2.0.0" ∧
    bumpVersion "1.2.3" 3 = .error "IndexError: list index out of range" ∧
    (∀ (s : String) (parts : List Int) (index : Int),
      releaseInts s = some parts →
      0 ≤ (if index < 0 then index + parts.length else index) →
      (if index < 0 then index + parts.length else index) < (parts.length : Int) →
      bumpVersion s index =
        .ok (String.intercalate "."
          ((bumpAt parts (if index < 0 then index + parts.length else index).toNat).map
            pyStrInt))) ∧
    (∀ (s : String) (parts : List Int) (index : Int),
      releaseInts s = some parts →
      ((parts.length : Int) ≤ index ∨ index + parts.length < 0) →
      bumpVersion s index = .error "IndexError: list index out of range") := by
  refine ⟨rfl, rfl, rfl, ?_, ?_⟩
  · intro s parts index hrel h0 hlt
    have hm : (splitOnDot s.data).mapM pyInt = .ok parts := by
      unfold releaseInts at hrel
      cases hmm : (splitOnDot s.data).mapM pyInt with
      | error e => rw [hmm] at hrel; simp at hrel
      | ok l => rw [hmm] at hrel; simp at hrel; rw [hrel]
    simp only [bumpVersion, hm]
    rw [if_pos ⟨h0, hlt⟩]
    by_cases hneg : index < 0
    · rw [if_pos hneg] at h0 hlt
      simp only [if_pos hneg]
      have hk : index + 1 = -((((-(index + 1)).toNat : Nat)) : Int) := by omega
      rw [hk, zeroLoop_neg parts.length]
      · rw [List.length_set]
        unfold bumpAt
        have hj : parts.length - (-(index + 1)).toNat =
            (index + (parts.length : Int)).toNat + 1 := by omega
        rw [hj]
      · simp only [List.length_set]
        omega
      · omega
    · rw [if_neg hneg] at h0 hlt
      simp only [if_neg hneg]
      have hk : index + 1 = ((index.toNat + 1 : Nat) : Int) := by omega
      rw [hk, zeroLoop_nonneg parts.length]
      · rfl
      · simp only [List.length_set]
      · simp only [List.length_set]
        omega
  · intro s parts index hrel hout
    have hm : (splitOnDot s.data).mapM pyInt = .ok parts := by
      unfold releaseInts at hrel
      cases hmm : (splitOnDot s.data).mapM pyInt with
      | error e => rw [hmm] at hrel; simp at hrel
      | ok l => rw [hmm] at hrel; simp at hrel; rw [hrel]
    simp only [bumpVersion, hm]
    rw [if_neg (by by_cases hneg : index < 0 <;> simp [hneg] <;> omega)]

/-- C8 witness. -/
theorem bump_version_spec_witness :
    bumpVersion "1.2.3" 1 = .ok "1.3.0" ∧
    bumpVersion "1.2.3" (-4) = .error "IndexError: list index out of range" :=
  ⟨(bump_version_spec.2.2.2.1 "1.2.3" [1, 2, 3] 1 rfl (by decide) (by decide)).trans rfl,
   bump_version_spec.2.2.2.2 "1.2.3" [1, 2, 3] (-4) rfl (by decide)⟩

/-- Helper: scanning a list whose front is all rejected and which then hits an
accepted candidate returns that candidate, with exactly the search-failing
front candidates appended to the accumulator in scan order. -/
theorem scan_found (p : RPattern) (hb : p.hasBase = true) (s : String)
    (rest : List String) (m : RMatch) (hs : p.search s = some m)
    (hbase : m.base.isSome = true) :
    ∀ (pre : List String) (acc : List String), (∀ t ∈ pre, rejectsP p t) →
      scanSources p (pre ++ s :: rest) acc =
        .ok (some (s, m, acc ++ pre.filter (fun t => (p.search t).isNone))) := by
  intro pre
  induction pre with
  | nil =>
    intro acc _
    simp only [List.nil_append, scanSources, hs, hb, if_true]
    cases hmb : m.base with
    | none => rw [hmb] at hbase; simp at hbase
    | some b => simp
  | cons t ts ih =>
    intro acc hpre
    have ht := hpre t (by simp)
    rcases ht with hnone | ⟨m', hm', hb'⟩
    · simp only [List.cons_append, scanSources, hnone, List.append_eq]
      rw [ih (acc ++ [t]) (fun x hx => hpre x (by simp [hx]))]
      simp [List.filter, hnone]
    · simp only [List.cons_append, scanSources, hm', hb, hb', eq_self_iff_true, if_true,
        List.append_eq]
      rw [ih acc (fun x hx => hpre x (by simp [hx]))]
      simp [List.filter, hm']

/-- Helper: scanning a list of rejected candidates finds nothing. -/
theorem scan_none (p : RPattern) (hb : p.hasBase = true) :
    ∀ (src acc : List String), (∀ t ∈ src, rejectsP p t) →
      scanSources p src acc = .ok none := by
  intro src
  induction src with
  | nil => intro acc _; rfl
  | cons t ts ih =>
    intro acc hpre
    have ht := hpre t (by simp)
    rcases ht with hnone | ⟨m', hm', hb'⟩
    · simp only [scanSources, hnone]
      exact ih _ (fun x hx => hpre x (by simp [hx]))
    · simp only [scanSources, hm', hb, hb', eq_self_iff_true, if_true]
      exact ih _ (fun x hx => hpre x (by simp [hx]))

/-- Helper: group extraction succeeds whenever any revision group text parses
as an integer. -/
theorem extract_ok (p : RPattern) (m : RMatch)
    (hrev : ∀ r, m.revision = some r → (pyInt r.data).isOk = true) :
    ∃ g, extractGroups p m = .ok g := by
  unfold extractGroups
  split
  · cases hst : m.stage with
    | none => exact ⟨_, rfl⟩
    | some st =>
      cases hrv : m.revision with
      | none => exact ⟨_, rfl⟩
      | some r =>
        simp only []
        cases hpi : pyInt r.data with
        | error e =>
          have := hrev r hrv
          rw [hpi] at this
          simp [Except.isOk, Except.toBool] at this
        | ok ri => exact ⟨_, rfl⟩
  · exact ⟨_, rfl⟩

/-- C3: with `latest_only` false the matcher accepts the first candidate whose
match has a participating `base` group and reports exactly the earlier
search-failing candidates as newer unmatched tags in scan order, raising the
no-match error when no candidate is accepted; with `latest_only` true only the
first candidate is tested and a mismatch raises at once.  Concretely, on
`["other", "v0.1.0"]` with the default v-prefixed pattern the match succeeds
on `"v0.1.0"` with newer tags `["other"]` when `latest` is false, and fails
when `latest` is true. -/
theorem pattern_matcher_spec :
    (∀ (p : RPattern) (pre : List String) (s : String) (rest : List String)
        (m : RMatch),
      p.hasBase = true →
      (∀ t ∈ pre, rejectsP p t) →
      p.search s = some m → m.base.isSome = true →
      (∀ r, m.revision = some r → (pyInt r.data).isOk = true) →
      ∃ res, matchVersionPattern p (pre ++ s :: rest) false = .ok res ∧
        res.matched_tag = s ∧ res.base = m.base.getD "" ∧
        res.newer_tags = pre.filter (fun t => (p.search t).isNone)) ∧
    (∀ (p : RPattern) (sources : List String),
      p.hasBase = true → sources ≠ [] → (∀ t ∈ sources, rejectsP p t) →
      matchVersionPattern p sources false = .error .noMatchAny) ∧
    (∀ (p : RPattern) (s : String) (rest : List String),
      p.hasBase = true → rejectsP p s →
      matchVersionPattern p (s :: rest) true = .error (.noMatchLatest s)) ∧
    matchVersionPattern defaultPattern ["other", "v0.1.0"] false =
      .ok ⟨"v0.1.0", "0.1.0", none, ["other"], none⟩ ∧
    matchVersionPattern defaultPattern ["other", "v0.1.0"] true =
      .error (.noMatchLatest "other") := by
  refine ⟨?_, ?_, ?_, rfl, rfl⟩
  · intro p pre s rest m hb hpre hs hbase hrev
    unfold matchVersionPattern
    simp only [Bool.false_eq_true, if_false]
    rw [scan_found p hb s rest m hs hbase pre [] hpre]
    obtain ⟨g, hg⟩ := extract_ok p m hrev
    obtain ⟨sr, tm⟩ := g
    simp only [hg, List.nil_append]
    exact ⟨_, rfl, rfl, rfl, rfl⟩
  · intro p sources hb _ hrej
    unfold matchVersionPattern
    simp only [Bool.false_eq_true, if_false]
    rw [scan_none p hb sources [] hrej]
  · intro p s rest hb hrej
    unfold matchVersionPattern
    simp only [if_true, List.take_succ_cons, List.take_zero]
    rw [scan_none p hb [s] [] (by intro t ht; simp at ht; subst ht; exact hrej)]
    simp

/-- C3 witness. -/
theorem pattern_matcher_spec_witness :
    (∃ res, matchVersionPattern defaultPattern (["other"] ++ "v0.1.0" :: []) false = .ok res ∧
      res.matched_tag = "v0.1.0" ∧
      res.base = (some "0.1.0" : Option String).getD "" ∧
      res.newer_tags = ["other"].filter
        (fun t => (defaultPattern.search t).isNone)) ∧
    matchVersionPattern defaultPattern ["other"] false = .error .noMatchAny ∧
    matchVersionPattern defaultPattern ["other", "x"] true =
      .error (.noMatchLatest "other") := by
  refine ⟨?_, ?_, ?_⟩
  · exact pattern_matcher_spec.1 defaultPattern ["other"] "v0.1.0" []
      ⟨some "0.1.0", none, none, none⟩ rfl
      (by intro t ht; simp at ht; subst ht; exact Or.inl rfl) rfl rfl
      (by intro r hr; simp at hr)
  · exact pattern_matcher_spec.2.1 defaultPattern ["other"] rfl (by simp)
      (by intro t ht; simp at ht; subst ht; exact Or.inl rfl)
  · exact pattern_matcher_spec.2.2.1 defaultPattern "other" ["x"] rfl (Or.inl rfl)

/-- Helper: `finishCheck` only ever returns the string its argument carried. -/
theorem finishCheck_eq_ok {b : Except String String} {st : Style} {s : String}
    (h : finishCheck b st = .ok s) : b = .ok s := by
  cases b with
  | error e => simp [finishCheck] at h
  | ok out =>
    cases hc : checkVersion out st with
    | error e => simp [finishCheck, hc] at h
    | ok u => simp [finishCheck, hc] at h; rw [h]

theorem str_append_empty (s : String) : s ++ "" = s := by
  cases s with
  | mk l => show String.mk (l ++ []) = String.mk l; rw [List.append_nil]

theorem str_empty_append (s : String) : "" ++ s = s := rfl

/-- C5: for a `Version` with stage unset, distance `N > 0`, and commit `c`,
default serialization (PEP 440, metadata unspecified) returns
`base ++ ".post" ++ N ++ ".dev0+" ++ c`; with `bump=True` the base is bumped
and the distance is rendered as `".dev" ++ N` instead of `".postN.dev0"`. -/
theorem serialize_distance_encoding (v : Version) (N : Int) (c : String)
    (hst : v.stage = none) (hd : v.distance = N) (hN : 0 < N)
    (hc : v.commit = some c) :
    (∀ s, Version.serialize v none false none none false false = .ok s →
      s = v.base ++ ".post" ++ pyStrInt N ++ ".dev0+" ++ c) ∧
    (∀ s, Version.serialize v none false none none true false = .ok s →
      ∃ b, bumpVersion v.base (-1) = .ok b ∧
        s = b ++ ".dev" ++ pyStrInt N ++ "+" ++ c) := by
  obtain ⟨vb, vst, vrev, vdist, vcom, vdirty, vtm⟩ := v
  simp only at hst hd hc
  subst hst; subst vdist; subst hc
  constructor
  · intro s h
    simp only [Version.serialize, Version.serializeSt, bumpedBaseRev, Option.getD,
      Bool.false_eq_true, if_false] at h
    have hbuild :
        buildStyled ⟨vb, none, vrev, N, some c, vdirty, vtm⟩ none false false false
          vb vrev .Pep440 =
          serializePep440 vb none vrev (some N) (some 0) none (some [c]) := by
      simp [buildStyled, metaParts, hN, show ¬ N ≤ 0 by omega]
    rw [hbuild] at h
    have h2 := finishCheck_eq_ok h
    unfold serializePep440 at h2
    have h3 := finishCheck_eq_ok h2
    simp only [Except.ok.injEq] at h3
    subst h3
    simp only [pep440Build, str_empty_append, str_append_empty, List.length_cons,
      List.length_nil, zero_add, Nat.zero_lt_one, if_true, String.append_assoc]
    rw [show pyStrInt 0 = "0" from rfl,
      show String.intercalate "." [c] = c from rfl]
    rw [show ".dev" ++ ("0" ++ ("+" ++ c)) = ".dev0+" ++ c from by
      rw [← String.append_assoc, ← String.append_assoc]
      exact congrArg (fun x => x ++ c) (by decide)]
  · intro s h
    simp only [Version.serialize, Version.serializeSt, bumpedBaseRev, Option.getD,
      eq_self_iff_true, if_true] at h
    cases hbv : bumpVersion vb (-1) with
    | error e => rw [hbv] at h; simp at h
    | ok b =>
      rw [hbv] at h
      simp only [] at h
      have hbuild :
          buildStyled ⟨vb, none, vrev, N, some c, vdirty, vtm⟩ none false true false
            b vrev .Pep440 =
            serializePep440 b none vrev none (some N) none (some [c]) := by
        simp [buildStyled, metaParts, hN, show ¬ N ≤ 0 by omega]
      rw [hbuild] at h
      have h2 := finishCheck_eq_ok h
      unfold serializePep440 at h2
      have h3 := finishCheck_eq_ok h2
      simp only [Except.ok.injEq] at h3
      subst h3
      refine ⟨b, rfl, ?_⟩
      simp only [pep440Build, str_empty_append, str_append_empty, List.length_cons,
        List.length_nil, zero_add, Nat.zero_lt_one, if_true, String.append_assoc]
      rw [show String.intercalate "." [c] = c from rfl]

/-- C5 witness: distance 1 on base `0.1.0` with commit `abc`. -/
theorem serialize_distance_encoding_witness :
    Version.serialize ⟨"0.1.0", none, none, 1, some "abc", none, none⟩
      none false none none false false = .ok "0.1.0.post1.dev0+abc" ∧
    "0.1.0.post1.dev0+abc" = "0.1.0" ++ ".post" ++ pyStrInt 1 ++ ".dev0+" ++ "abc" ∧
    Version.serialize ⟨"0.1.0", none, none, 1, some "abc", none, none⟩
      none false none none true false = .ok "0.1.1.dev1+abc" :=
  ⟨rfl,
   (serialize_distance_encoding ⟨"0.1.0", none, none, 1, some "abc", none, none⟩
      1 "abc" rfl rfl (by decide) rfl).1 "0.1.0.post1.dev0+abc" rfl,
   rfl⟩

/-! ## Helper lemmas for the round-trip proof -/

theorem splitOnDot_ne_nil (cs : List Char) : splitOnDot cs ≠ [] := by
  cases cs with
  | nil => simp [splitOnDot]
  | cons c rest =>
    simp only [splitOnDot]
    split
    · simp
    · split <;> simp

theorem interDot_splitOnDot (cs : List Char) : interDot (splitOnDot cs) = cs := by
  induction cs with
  | nil => rfl
  | cons c rest ih =>
    simp only [splitOnDot]
    by_cases hc : c = '.'
    · subst hc
      rw [if_pos rfl]
      cases hsp : splitOnDot rest with
      | nil => exact absurd hsp (splitOnDot_ne_nil rest)
      | cons g gs =>
        rw [hsp] at ih
        simp only [interDot]
        rw [ih]
        rfl
    · rw [if_neg hc]
      cases hsp : splitOnDot rest with
      | nil => exact absurd hsp (splitOnDot_ne_nil rest)
      | cons g gs =>
        rw [hsp] at ih
        cases gs with
        | nil =>
          simp only [interDot] at ih ⊢
          rw [ih]
        | cons g2 gs2 =>
          simp only [interDot] at ih ⊢
          rw [List.cons_append, ih]

theorem splitOnDot_dotfree (g : List Char) (h : ∀ c ∈ g, c ≠ '.') :
    splitOnDot g = [g] := by
  induction g with
  | nil => rfl
  | cons c rest ih =>
    simp only [splitOnDot]
    rw [if_neg (h c (by simp))]
    rw [ih (fun x hx => h x (by simp [hx]))]

theorem splitOnDot_append_dot (g ys : List Char) (h : ∀ c ∈ g, c ≠ '.') :
    splitOnDot (g ++ '.' :: ys) = g :: splitOnDot ys := by
  induction g with
  | nil => simp [splitOnDot]
  | cons c rest ih =>
    simp only [List.cons_append, splitOnDot, List.append_eq]
    rw [if_neg (h c (by simp)), ih (fun x hx => h x (by simp [hx]))]

theorem splitOnDot_interDot (gs : List (List Char))
    (h : ∀ g ∈ gs, ∀ c ∈ g, c ≠ '.') (hne : gs ≠ []) :
    splitOnDot (interDot gs) = gs := by
  induction gs with
  | nil => simp at hne
  | cons g rest ih =>
    cases rest with
    | nil => exact splitOnDot_dotfree g (h g (by simp))
    | cons g2 rest2 =>
      show splitOnDot (g ++ '.' :: interDot (g2 :: rest2)) = _
      rw [splitOnDot_append_dot g _ (h g (by simp))]
      rw [ih (fun x hx c hc => h x (by simp [hx]) c hc) (by simp)]

theorem interDot_append (gs hs : List (List Char)) (h2 : hs ≠ []) :
    gs ≠ [] → interDot (gs ++ hs) = interDot gs ++ '.' :: interDot hs := by
  induction gs with
  | nil => intro h1; simp at h1
  | cons g rest ih =>
    intro _
    cases rest with
    | nil =>
      cases hs with
      | nil => simp at h2
      | cons a as => simp [interDot]
    | cons g2 r2 =>
      show g ++ '.' :: interDot ((g2 :: r2) ++ hs) = _
      rw [ih (by simp)]
      simp [interDot, List.append_assoc]

theorem attachLast_ne_nil (e : List Char) (gs : List (List Char)) :
    attachLast e gs ≠ [] := by
  cases gs with
  | nil => simp [attachLast]
  | cons g rest =>
    cases rest with
    | nil => simp [attachLast]
    | cons g2 r2 => simp [attachLast]

theorem interDot_attachLast (e : List Char) (gs : List (List Char)) (h : gs ≠ []) :
    interDot (attachLast e gs) = interDot gs ++ e := by
  induction gs with
  | nil => simp at h
  | cons g rest ih =>
    cases rest with
    | nil => simp [attachLast, interDot]
    | cons g2 r2 =>
      simp only [attachLast]
      obtain ⟨x, xs, hx⟩ : ∃ x xs, attachLast e (g2 :: r2) = x :: xs := by
        cases hh : attachLast e (g2 :: r2) with
        | nil => exact absurd hh (attachLast_ne_nil e _)
        | cons x xs => exact ⟨x, xs, rfl⟩
      rw [hx]
      simp only [interDot]
      rw [← hx, ih (by simp)]
      simp [interDot, List.append_assoc]

theorem interDot_cons_head (p g : List Char) (gs : List (List Char)) :
    interDot ((p ++ g) :: gs) = p ++ interDot (g :: gs) := by
  cases gs with
  | nil => simp [interDot]
  | cons g2 r2 => simp [interDot, List.append_assoc]

theorem attachLast_append_last (e : List Char) (ini : List (List Char)) (g : List Char) :
    attachLast e (ini ++ [g]) = ini ++ [g ++ e] := by
  induction ini with
  | nil => simp [attachLast]
  | cons x xs ih =>
    obtain ⟨y, ys, hy⟩ : ∃ y ys, xs ++ [g] = y :: ys := by
      cases xs with
      | nil => exact ⟨g, [], rfl⟩
      | cons a as => exact ⟨a, as ++ [g], rfl⟩
    show attachLast e (x :: (xs ++ [g])) = _
    rw [hy]
    simp only [attachLast]
    rw [← hy, ih]
    simp

theorem takeWhile_dropWhile_exact (p : Char → Bool) (xs ys : List Char)
    (h1 : ∀ x ∈ xs, p x = true) (h2 : ∀ y, ys.head? = some y → p y = false) :
    (xs ++ ys).takeWhile p = xs ∧ (xs ++ ys).dropWhile p = ys := by
  induction xs with
  | nil =>
    simp only [List.nil_append]
    cases ys with
    | nil => simp
    | cons y ys' =>
      have hp := h2 y rfl
      simp [List.takeWhile, List.dropWhile, hp]
  | cons x xs' ih =>
    have hx := h1 x (by simp)
    have hih := ih (fun a ha => h1 a (by simp [ha]))
    simp [List.takeWhile, List.dropWhile, hx, hih.1, hih.2]

theorem digitsToNat_append_digit (xs : List Char) (c : Char) :
    digitsToNat (xs ++ [c]) = 10 * digitsToNat xs + digVal c := by
  simp [digitsToNat, List.foldl_append]

theorem isDig_digChar (d : Nat) : isDig (digChar d) = true := by
  unfold digChar
  repeat' split
  all_goals decide

theorem isAlpha_digChar (d : Nat) : (digChar d).isAlpha = false := by
  unfold digChar
  repeat' split
  all_goals decide

theorem isDig_ne {c x : Char} (h1 : isDig c = true) (h2 : isDig x = false) : c ≠ x := by
  intro he
  rw [he] at h1
  rw [h1] at h2
  cases h2

theorem digVal_digChar (d : Nat) (h : d < 10) : digVal (digChar d) = d := by
  interval_cases d <;> decide

theorem charsOfNatAux_spec : ∀ (fuel n : Nat), n < fuel →
    charsOfNatAux fuel n ≠ [] ∧ (∀ c ∈ charsOfNatAux fuel n, isDig c = true) ∧
    digitsToNat (charsOfNatAux fuel n) = n := by
  intro fuel
  induction fuel with
  | zero => intro n h; omega
  | succ f ih =>
    intro n h
    simp only [charsOfNatAux]
    by_cases h10 : n < 10
    · rw [if_pos h10]
      refine ⟨by simp, ?_, ?_⟩
      · intro c hc
        simp at hc
        subst hc
        exact isDig_digChar n
      · simp [digitsToNat, digVal_digChar n h10]
    · rw [if_neg h10]
      have hn : n / 10 < f := by omega
      obtain ⟨hne, hdig, hval⟩ := ih (n / 10) hn
      refine ⟨by simp, ?_, ?_⟩
      · intro c hc
        simp at hc
        rcases hc with hc | hc
        · exact hdig c hc
        · subst hc; exact isDig_digChar _
      · rw [digitsToNat_append_digit, hval, digVal_digChar _ (by omega)]
        omega

theorem charsOfNat_spec (n : Nat) :
    charsOfNat n ≠ [] ∧ (∀ c ∈ charsOfNat n, isDig c = true) ∧
    digitsToNat (charsOfNat n) = n :=
  charsOfNatAux_spec (n + 1) n (by omega)

theorem string_mk_data (s : String) : String.mk s.data = s := rfl

theorem string_data_append (a b : String) : (a ++ b).data = a.data ++ b.data := rfl

theorem pyStrInt_nonneg_data (i : Int) (h : 0 ≤ i) :
    (pyStrInt i).data = charsOfNat i.toNat := by
  unfold pyStrInt
  rw [if_neg (by omega)]
  rfl

theorem charsOfNatAux_digChar : ∀ (fuel n : Nat), n < fuel →
    ∀ c ∈ charsOfNatAux fuel n, ∃ d, d < 10 ∧ c = digChar d := by
  intro fuel
  induction fuel with
  | zero => intro n h; omega
  | succ f ih =>
    intro n h c hc
    simp only [charsOfNatAux] at hc
    by_cases h10 : n < 10
    · rw [if_pos h10] at hc
      simp at hc
      exact ⟨n, h10, hc⟩
    · rw [if_neg h10] at hc
      simp at hc
      rcases hc with hc | hc
      · exact ih (n / 10) (by omega) c hc
      · exact ⟨n % 10, by omega, hc⟩

theorem charsOfNat_digChar (n : Nat) :
    ∀ c ∈ charsOfNat n, ∃ d, d < 10 ∧ c = digChar d :=
  charsOfNatAux_digChar (n + 1) n (by omega)

theorem charsOfNat_notAlpha (n : Nat) : ∀ c ∈ charsOfNat n, c.isAlpha = false := by
  intro c hc
  obtain ⟨d, _, rfl⟩ := charsOfNat_digChar n c hc
  exact isAlpha_digChar d

theorem charsOfNat_ne (n : Nat) (x : Char) (hx : isDig x = false) :
    ∀ c ∈ charsOfNat n, c ≠ x := by
  intro c hc
  exact isDig_ne ((charsOfNat_spec n).2.1 c hc) hx

theorem head?_mem {α : Type} {l : List α} {y : α} (h : l.head? = some y) : y ∈ l := by
  cases l with
  | nil => cases h
  | cons a as => simp at h; subst h; simp

theorem stripLead_append (t r : List Char) : stripLead t (t ++ r) = some r := by
  induction t with
  | nil => cases r <;> rfl
  | cons c cs ih => simp [stripLead, ih]

theorem stripLead_ne (t : Char) (ts : List Char) (c : Char) (cs : List Char)
    (h : c ≠ t) : stripLead (t :: ts) (c :: cs) = none := by
  simp only [stripLead]
  rw [if_neg (fun he => h (Eq.symm he))]

theorem popNamed_pop (tag ds : List Char) (X : List (List Char))
    (h1 : ds ≠ []) (h2 : ∀ c ∈ ds, isDig c = true) :
    popNamed tag (X ++ [tag ++ ds]) = (some (digitsToNat ds), X) := by
  unfold popNamed
  simp only [List.reverse_append, List.reverse_cons, List.reverse_nil,
    List.nil_append, List.singleton_append, stripLead_append]
  have hall : ds.all isDig = true := by rw [List.all_eq_true]; exact h2
  simp [h1, hall, List.isEmpty_iff]

theorem popNamed_skip (t : Char) (ts : List Char) (X : List (List Char))
    (c : Char) (cs : List Char) (hne : c ≠ t) :
    popNamed (t :: ts) (X ++ [c :: cs]) = (none, X ++ [c :: cs]) := by
  unfold popNamed
  simp only [List.reverse_append, List.reverse_cons, List.reverse_nil,
    List.nil_append, List.singleton_append]
  rw [stripLead_ne t ts c cs hne]

theorem splitEpoch_some (e : Nat) (t0 : List Char) :
    splitEpoch ((charsOfNat e ++ ['!']) ++ t0) = (some (e : Int), t0) := by
  have hx := takeWhile_dropWhile_exact isDig (charsOfNat e) ('!' :: t0)
    (charsOfNat_spec e).2.1
    (fun y hy => by simp at hy; subst hy; decide)
  simp only [splitEpoch, List.append_assoc, List.singleton_append, hx.1, hx.2]
  rw [if_neg (by simp [List.isEmpty_iff, (charsOfNat_spec e).1])]
  rw [(charsOfNat_spec e).2.2]

theorem splitEpoch_none (u w : List Char) (hu : ∀ c ∈ u, isDig c = true)
    (hw : ∀ y, w.head? = some y → isDig y = false ∧ y ≠ '!') :
    splitEpoch (u ++ w) = (none, u ++ w) := by
  unfold splitEpoch
  have hx := takeWhile_dropWhile_exact isDig u w hu (fun y hy => (hw y hy).1)
  rw [hx.1, hx.2]
  cases w with
  | nil => rfl
  | cons y ws =>
    have hy := hw y rfl
    split
    · next rest heq =>
      cases heq
      exact absurd rfl hy.2
    · rfl

theorem parseStagePart_stage (nm : String)
    (hnm : nm = "a" ∨ nm = "b" ∨ nm = "rc") (rv : Nat) :
    parseStagePart (nm.data ++ charsOfNat rv) = some (nm, rv) := by
  have halpha : ∀ c ∈ nm.data, Char.isAlpha c = true := by
    rcases hnm with h | h | h <;> subst h <;> decide
  have hx := takeWhile_dropWhile_exact Char.isAlpha nm.data (charsOfNat rv) halpha
    (fun y hy => charsOfNat_notAlpha rv y (head?_mem hy))
  unfold parseStagePart
  rw [hx.1, hx.2]
  have hall : (charsOfNat rv).all isDig = true := by
    rw [List.all_eq_true]; exact (charsOfNat_spec rv).2.1
  rw [if_pos ⟨by rcases hnm with h | h | h <;> subst h <;> simp,
    (charsOfNat_spec rv).1, by rw [List.all_eq_true]; exact (charsOfNat_spec rv).2.1⟩]
  rw [string_mk_data, (charsOfNat_spec rv).2.2]

theorem attachLast_dotfree (e : List Char) (gs : List (List Char))
    (hgs : ∀ g ∈ gs, ∀ c ∈ g, c ≠ '.') (he : ∀ c ∈ e, c ≠ '.') :
    ∀ g ∈ attachLast e gs, ∀ c ∈ g, c ≠ '.' := by
  induction gs with
  | nil =>
    intro g hg c hc
    simp [attachLast] at hg
    subst hg
    exact he c hc
  | cons x xs ih =>
    cases xs with
    | nil =>
      intro g hg c hc
      simp [attachLast] at hg
      subst hg
      simp at hc
      rcases hc with hc | hc
      · exact hgs x (by simp) c hc
      · exact he c hc
    | cons y ys =>
      intro g hg c hc
      simp only [attachLast] at hg
      simp at hg
      rcases hg with hg | hg
      · subst hg; exact hgs g (by simp) c hc
      · exact ih (fun a ha => hgs a (by simp [ha])) g hg c hc

theorem interDot_expSegs (ep : Option Nat) (stg : Option (String × Nat))
    (post : Option Nat) (bg : List (List Char)) (hbg : bg ≠ []) :
    interDot (expSegs ep stg post bg) =
      epChars ep ++ (interDot bg ++ (stgChars stg ++ pdChars post)) := by
  unfold expSegs
  obtain ⟨g, gs, hgs⟩ : ∃ g gs, attachLast (stgChars stg) bg = g :: gs := by
    cases hh : attachLast (stgChars stg) bg with
    | nil => exact absurd hh (attachLast_ne_nil _ _)
    | cons g gs => exact ⟨g, gs, rfl⟩
  rw [hgs]
  cases post with
  | none =>
    simp only [postSegs, pdChars, List.append_nil]
    rw [interDot_cons_head, ← hgs, interDot_attachLast _ _ hbg]
  | some d =>
    simp only [postSegs, pdChars]
    rw [interDot_append _ _ (by simp) (by simp)]
    rw [interDot_cons_head, ← hgs, interDot_attachLast _ _ hbg]
    simp [interDot, List.append_assoc]

theorem stgChars_head (stg : Option (String × Nat))
    (hstg : ∀ p ∈ stg, p.1 = "a" ∨ p.1 = "b" ∨ p.1 = "rc") :
    ∀ y, (stgChars stg).head? = some y →
      isDig y = false ∧ y ≠ '!' ∧ y.isAlpha = true := by
  cases stg with
  | none => intro y hy; simp [stgChars] at hy
  | some p =>
    obtain ⟨nm, rv⟩ := p
    have hnm := hstg (nm, rv) rfl
    intro y hy
    rcases hnm with h | h | h <;> simp at h <;> subst h <;>
      simp [stgChars] at hy <;> subst hy <;>
      exact ⟨by decide, by decide, by decide⟩

theorem parseBase_spec (bgIni : List (List Char)) (bgLast : List Char)
    (stg : Option (String × Nat))
    (hdig : ∀ g ∈ bgIni ++ [bgLast], g ≠ [] ∧ ∀ c ∈ g, isDig c = true)
    (hstg : ∀ p ∈ stg, p.1 = "a" ∨ p.1 = "b" ∨ p.1 = "rc") :
    parseBase (bgIni ++ [bgLast ++ stgChars stg]) =
      some (String.mk (interDot (bgIni ++ [bgLast])), stg.map Prod.fst,
        stg.map (fun p => ((p.2 : Nat) : Int))) := by
  unfold parseBase
  have hrev : (bgIni ++ [bgLast ++ stgChars stg]).reverse =
      (bgLast ++ stgChars stg) :: bgIni.reverse := by simp
  rw [hrev]
  simp only [List.reverse_reverse]
  have hlast := hdig bgLast (by simp)
  have hini : bgIni.all (fun g => !g.isEmpty && g.all isDig) = true := by
    rw [List.all_eq_true]
    intro g hg
    have hgf := hdig g (by simp [hg])
    simp only [Bool.and_eq_true, Bool.not_eq_true']
    constructor
    · simp [List.isEmpty_iff, hgf.1]
    · rw [List.all_eq_true]; exact hgf.2
  rw [if_pos hini]
  have hspan := takeWhile_dropWhile_exact isDig bgLast (stgChars stg) hlast.2
    (fun y hy => (stgChars_head stg hstg y hy).1)
  rw [hspan.1, hspan.2]
  rw [if_neg (by simp [List.isEmpty_iff, hlast.1])]
  cases stg with
  | none => simp [stgChars]
  | some p =>
    obtain ⟨nm, rv⟩ := p
    have hnm := hstg (nm, rv) rfl
    have hne : (stgChars (some (nm, rv))).isEmpty = false := by
      rcases hnm with h | h | h <;> simp at h <;> subst h <;> simp [stgChars]
    rw [if_neg (by simp [hne])]
    rw [show stgChars (some (nm, rv)) = nm.data ++ charsOfNat rv from rfl]
    rw [parseStagePart_stage nm hnm rv]
    rfl

theorem parseMain_expSegs (bgIni : List (List Char)) (bgLast : List Char)
    (hdig : ∀ g ∈ bgIni ++ [bgLast], g ≠ [] ∧ ∀ c ∈ g, isDig c = true)
    (ep : Option Nat) (stg : Option (String × Nat))
    (hstg : ∀ p ∈ stg, p.1 = "a" ∨ p.1 = "b" ∨ p.1 = "rc")
    (post : Option Nat) :
    parseMain (expSegs ep stg post (bgIni ++ [bgLast])) =
      some ⟨ep.map (fun e => ((e : Nat) : Int)), String.mk (interDot (bgIni ++ [bgLast])),
        stg.map Prod.fst, stg.map (fun p => ((p.2 : Nat) : Int)), post⟩ := by
  have hlast := hdig bgLast (by simp)
  obtain ⟨t0, gs, hatt, u, w, huw, hu_ne, hu_dig, hw_head⟩ :
      ∃ t0 gs, attachLast (stgChars stg) (bgIni ++ [bgLast]) = t0 :: gs ∧
        ∃ u w, t0 = u ++ w ∧ u ≠ [] ∧ (∀ c ∈ u, isDig c = true) ∧
          (∀ y, w.head? = some y → isDig y = false ∧ y ≠ '!') := by
    rw [attachLast_append_last]
    cases bgIni with
    | nil =>
      exact ⟨bgLast ++ stgChars stg, [], rfl, bgLast, stgChars stg, rfl, hlast.1,
        hlast.2, fun y hy =>
          ⟨(stgChars_head stg hstg y hy).1, (stgChars_head stg hstg y hy).2.1⟩⟩
    | cons x xs =>
      have hx := hdig x (by simp)
      exact ⟨x, xs ++ [bgLast ++ stgChars stg], rfl, x, [], by simp, hx.1, hx.2,
        fun y hy => by cases hy⟩
  have harg : t0 :: gs = bgIni ++ [bgLast ++ stgChars stg] :=
    hatt.symm.trans (attachLast_append_last (stgChars stg) bgIni bgLast)
  have hexp : expSegs ep stg post (bgIni ++ [bgLast]) =
      ((epChars ep ++ t0) :: gs) ++ postSegs post := by
    unfold expSegs
    rw [hatt]
  have hsplitE : splitEpoch (epChars ep ++ t0) =
      (ep.map (fun e => ((e : Nat) : Int)), t0) := by
    cases ep with
    | none =>
      show splitEpoch ([] ++ t0) = (none, t0)
      rw [List.nil_append, huw]
      exact splitEpoch_none u w hu_dig hw_head
    | some e =>
      show splitEpoch ((charsOfNat e ++ ['!']) ++ t0) = (some (e : Int), t0)
      exact splitEpoch_some e t0
  have hlastelem : ∃ X c cs,
      ((epChars ep ++ t0) :: gs) = X ++ [c :: cs] ∧ isDig c = true := by
    rcases hgs : gs.reverse with _ | ⟨glast, grest⟩
    · have hgsnil : gs = [] := by rw [← List.reverse_reverse gs, hgs]; rfl
      subst hgsnil
      cases hep : ep with
      | none =>
        obtain ⟨c, cs', hc⟩ : ∃ c cs', u = c :: cs' := by
          cases u with
          | nil => exact absurd rfl hu_ne
          | cons a b => exact ⟨a, b, rfl⟩
        refine ⟨[], c, cs' ++ w, ?_, hu_dig c (by rw [hc]; simp)⟩
        simp [epChars, huw, hc]
      | some e =>
        obtain ⟨c, cs', hc⟩ : ∃ c cs', charsOfNat e = c :: cs' := by
          cases hcn : charsOfNat e with
          | nil => exact absurd hcn (charsOfNat_spec e).1
          | cons a b => exact ⟨a, b, rfl⟩
        refine ⟨[], c, (cs' ++ ['!']) ++ t0, ?_,
          (charsOfNat_spec e).2.1 c (by rw [hc]; simp)⟩
        simp [epChars, hc, List.append_assoc]
    · have hgs' : gs = grest.reverse ++ [glast] := by
        rw [← List.reverse_reverse gs, hgs]
        simp
      have h2 := congrArg List.getLast? harg
      rw [hgs'] at h2
      rw [show t0 :: (grest.reverse ++ [glast]) = (t0 :: grest.reverse) ++ [glast]
        from by simp] at h2
      rw [List.getLast?_concat, List.getLast?_concat] at h2
      have hgl : glast = bgLast ++ stgChars stg := by
        injection h2
      obtain ⟨c, cs', hc⟩ : ∃ c cs', bgLast = c :: cs' := by
        cases bgLast with
        | nil => exact absurd rfl hlast.1
        | cons a b => exact ⟨a, b, rfl⟩
      refine ⟨(epChars ep ++ t0) :: grest.reverse, c, cs' ++ stgChars stg, ?_,
        hlast.2 c (by rw [hc]; simp)⟩
      rw [hgs', hgl, hc]
      simp
  obtain ⟨X, c, cs, hXdec, hcdig⟩ := hlastelem
  rw [hexp]
  cases post with
  | none =>
    simp only [postSegs, List.append_nil]
    have hd1 : popNamed ['d', 'e', 'v'] ((epChars ep ++ t0) :: gs) =
        (none, (epChars ep ++ t0) :: gs) := by
      rw [hXdec]
      exact popNamed_skip _ _ _ _ _ (isDig_ne hcdig (by decide))
    have hd2 : popNamed ['p', 'o', 's', 't'] ((epChars ep ++ t0) :: gs) =
        (none, (epChars ep ++ t0) :: gs) := by
      rw [hXdec]
      exact popNamed_skip _ _ _ _ _ (isDig_ne hcdig (by decide))
    simp only [parseMain, hd1, hd2, hsplitE]
    rw [harg, parseBase_spec bgIni bgLast stg hdig hstg]
  | some d =>
    have e1 : ((epChars ep ++ t0) :: gs) ++ postSegs (some d) =
        (((epChars ep ++ t0) :: gs) ++ [['p', 'o', 's', 't'] ++ charsOfNat d]) ++
          [['d', 'e', 'v'] ++ ['0']] := by
      simp [postSegs]
    rw [e1]
    have hp1 := popNamed_pop ['d', 'e', 'v'] ['0']
      (((epChars ep ++ t0) :: gs) ++ [['p', 'o', 's', 't'] ++ charsOfNat d])
      (by simp) (by intro x hx; simp at hx; subst hx; decide)
    have hp2 := popNamed_pop ['p', 'o', 's', 't'] (charsOfNat d)
      ((epChars ep ++ t0) :: gs) (charsOfNat_spec d).1 (charsOfNat_spec d).2.1
    rw [(charsOfNat_spec d).2.2] at hp2
    simp only [parseMain, hp1, hp2, hsplitE]
    rw [harg, parseBase_spec bgIni bgLast stg hdig hstg]

theorem string_data_mk (l : List Char) : (String.mk l).data = l := rfl

theorem intercalate_single (c : String) : String.intercalate "." [c] = c := rfl

theorem pyStrInt_natCast_data (n : Nat) : (pyStrInt (n : Int)).data = charsOfNat n := by
  rw [pyStrInt_nonneg_data _ (by omega)]
  simp

theorem charsOfNat_zero : charsOfNat 0 = ['0'] := rfl

theorem interDot_mem (gs : List (List Char)) :
    ∀ c ∈ interDot gs, c = '.' ∨ ∃ g ∈ gs, c ∈ g := by
  induction gs with
  | nil => intro c hc; cases hc
  | cons g rest ih =>
    cases rest with
    | nil =>
      intro c hc
      exact Or.inr ⟨g, by simp, hc⟩
    | cons g2 r2 =>
      intro c hc
      rw [show interDot (g :: g2 :: r2) = g ++ '.' :: interDot (g2 :: r2) from rfl] at hc
      rcases List.mem_append.mp hc with hc | hc
      · exact Or.inr ⟨g, by simp, hc⟩
      · rcases List.mem_cons.mp hc with hc | hc
        · exact Or.inl hc
        · rcases ih c hc with h | ⟨g3, hg3, hcg3⟩
          · exact Or.inl h
          · exact Or.inr ⟨g3, by simp [hg3], hcg3⟩

theorem epChars_chars (ep : Option Nat) :
    ∀ c ∈ epChars ep, isDig c = true ∨ c = '!' := by
  cases ep with
  | none => intro c hc; cases hc
  | some e =>
    intro c hc
    rcases List.mem_append.mp hc with hc | hc
    · exact Or.inl ((charsOfNat_spec e).2.1 c hc)
    · exact Or.inr (by simpa using hc)

theorem stgChars_chars (stg : Option (String × Nat))
    (hstg : ∀ p ∈ stg, p.1 = "a" ∨ p.1 = "b" ∨ p.1 = "rc") :
    ∀ c ∈ stgChars stg, isDig c = true ∨ c.isAlpha = true := by
  cases stg with
  | none => intro c hc; cases hc
  | some p =>
    obtain ⟨nm, rv⟩ := p
    have hnm := hstg (nm, rv) rfl
    have halpha : ∀ c ∈ nm.data, Char.isAlpha c = true := by
      rcases hnm with h | h | h <;> simp at h <;> subst h <;> decide
    intro c hc
    rcases List.mem_append.mp hc with hc | hc
    · exact Or.inr (halpha c hc)
    · exact Or.inl ((charsOfNat_spec rv).2.1 c hc)

theorem postSegs_chars (post : Option Nat) :
    ∀ g ∈ postSegs post, ∀ c ∈ g, isDig c = true ∨ c.isAlpha = true := by
  cases post with
  | none => intro g hg; cases hg
  | some d =>
    intro g hg c hc
    rcases List.mem_cons.mp hg with hg | hg
    · subst hg
      rcases List.mem_append.mp hc with hc | hc
      · exact Or.inr (by
          have : ∀ x ∈ (['p', 'o', 's', 't'] : List Char), Char.isAlpha x = true := by
            decide
          exact this c hc)
      · exact Or.inl ((charsOfNat_spec d).2.1 c hc)
    · have hg2 : g = ['d', 'e', 'v', '0'] := by simpa using hg
      subst hg2
      have : ∀ x ∈ (['d', 'e', 'v', '0'] : List Char),
          isDig x = true ∨ Char.isAlpha x = true := by decide
      exact this c hc

theorem pdChars_chars (post : Option Nat) :
    ∀ c ∈ pdChars post, isDig c = true ∨ c.isAlpha = true ∨ c = '.' := by
  cases post with
  | none => intro c hc; cases hc
  | some d =>
    intro c hc
    rcases List.mem_append.mp hc with hc | hc
    · rcases List.mem_cons.mp hc with hc | hc
      · exact Or.inr (Or.inr hc)
      · rcases List.mem_append.mp hc with hc | hc
        · refine Or.inr (Or.inl ?_)
          have : ∀ x ∈ (['p', 'o', 's', 't'] : List Char), Char.isAlpha x = true := by
            decide
          exact this c hc
        · exact Or.inl ((charsOfNat_spec d).2.1 c hc)
    · rcases List.mem_cons.mp hc with hc | hc
      · exact Or.inr (Or.inr hc)
      · have : ∀ x ∈ (['d', 'e', 'v', '0'] : List Char),
            isDig x = true ∨ Char.isAlpha x = true := by decide
        rcases this c hc with h | h
        · exact Or.inl h
        · exact Or.inr (Or.inl h)

theorem expSegs_ne_nil (ep : Option Nat) (stg : Option (String × Nat))
    (post : Option Nat) (bg : List (List Char)) :
    expSegs ep stg post bg ≠ [] := by
  unfold expSegs
  obtain ⟨g, gs, hgs⟩ : ∃ g gs, attachLast (stgChars stg) bg = g :: gs := by
    cases hh : attachLast (stgChars stg) bg with
    | nil => exact absurd hh (attachLast_ne_nil _ _)
    | cons g gs => exact ⟨g, gs, rfl⟩
  rw [hgs]
  simp

theorem expSegs_one (ep : Option Nat) (stg : Option (String × Nat))
    (post : Option Nat) (bgLast : List Char) :
    expSegs ep stg post [bgLast] =
      [epChars ep ++ (bgLast ++ stgChars stg)] ++ postSegs post := rfl

theorem expSegs_cons (ep : Option Nat) (stg : Option (String × Nat))
    (post : Option Nat) (x : List Char) (xs : List (List Char)) (bgLast : List Char) :
    expSegs ep stg post ((x :: xs) ++ [bgLast]) =
      ((epChars ep ++ x) :: attachLast (stgChars stg) (xs ++ [bgLast])) ++
        postSegs post := by
  unfold expSegs
  obtain ⟨y, ys, hy⟩ : ∃ y ys, xs ++ [bgLast] = y :: ys := by
    cases xs with
    | nil => exact ⟨bgLast, [], rfl⟩
    | cons a as => exact ⟨a, as ++ [bgLast], rfl⟩
  show (match attachLast (stgChars stg) (x :: (xs ++ [bgLast])) with
    | [] => []
    | g :: gs => (epChars ep ++ g) :: gs) ++ postSegs post = _
  rw [hy]
  simp only [attachLast]

theorem expSegs_dotfree (ep : Option Nat) (stg : Option (String × Nat))
    (post : Option Nat) (bgIni : List (List Char)) (bgLast : List Char)
    (hdig : ∀ g ∈ bgIni ++ [bgLast], ∀ c ∈ g, isDig c = true)
    (hstg : ∀ p ∈ stg, p.1 = "a" ∨ p.1 = "b" ∨ p.1 = "rc") :
    ∀ g ∈ expSegs ep stg post (bgIni ++ [bgLast]), ∀ c ∈ g, c ≠ '.' := by
  have hep : ∀ c ∈ epChars ep, c ≠ '.' := by
    intro c hc
    rcases epChars_chars ep c hc with h | h
    · exact isDig_ne h (by decide)
    · subst h; decide
  have hsg : ∀ c ∈ stgChars stg, c ≠ '.' := by
    intro c hc
    rcases stgChars_chars stg hstg c hc with h | h
    · exact isDig_ne h (by decide)
    · intro he; rw [he] at h; exact absurd h (by decide)
  have hpost : ∀ g ∈ postSegs post, ∀ c ∈ g, c ≠ '.' := by
    intro g hg c hc
    rcases postSegs_chars post g hg c hc with h | h
    · exact isDig_ne h (by decide)
    · intro he; rw [he] at h; exact absurd h (by decide)
  have hbgc : ∀ g ∈ bgIni ++ [bgLast], ∀ c ∈ g, c ≠ '.' := by
    intro g hg c hc
    exact isDig_ne (hdig g hg c hc) (by decide)
  intro g hg c hc
  cases bgIni with
  | nil =>
    rw [List.nil_append, expSegs_one] at hg
    rcases List.mem_append.mp hg with hg | hg
    · have hgeq : g = epChars ep ++ (bgLast ++ stgChars stg) := by simpa using hg
      subst hgeq
      rcases List.mem_append.mp hc with hc | hc
      · exact hep c hc
      rcases List.mem_append.mp hc with hc | hc
      · exact hbgc bgLast (by simp) c hc
      · exact hsg c hc
    · exact hpost g hg c hc
  | cons x xs =>
    rw [expSegs_cons] at hg
    rcases List.mem_append.mp hg with hg | hg
    · rcases List.mem_cons.mp hg with hg | hg
      · subst hg
        rcases List.mem_append.mp hc with hc | hc
        · exact hep c hc
        · exact hbgc x (by simp) c hc
      · rw [attachLast_append_last] at hg
        rcases List.mem_append.mp hg with hg | hg
        · exact hbgc g (by simp [hg]) c hc
        · have hgeq : g = bgLast ++ stgChars stg := by simpa using hg
          subst hgeq
          rcases List.mem_append.mp hc with hc | hc
          · exact hbgc bgLast (by simp) c hc
          · exact hsg c hc
    · exact hpost g hg c hc

theorem expSegs_interDot_no_plus (ep : Option Nat) (stg : Option (String × Nat))
    (post : Option Nat) (bgIni : List (List Char)) (bgLast : List Char)
    (hdig : ∀ g ∈ bgIni ++ [bgLast], ∀ c ∈ g, isDig c = true)
    (hstg : ∀ p ∈ stg, p.1 = "a" ∨ p.1 = "b" ∨ p.1 = "rc") :
    ∀ c ∈ interDot (expSegs ep stg post (bgIni ++ [bgLast])), c ≠ '+' := by
  intro c hc
  rw [interDot_expSegs ep stg post _ (by simp)] at hc
  rcases List.mem_append.mp hc with hc | hc
  · rcases epChars_chars ep c hc with h | h
    · exact isDig_ne h (by decide)
    · subst h; decide
  rcases List.mem_append.mp hc with hc | hc
  · rcases interDot_mem _ c hc with h | ⟨g, hg, hcg⟩
    · subst h; decide
    · exact isDig_ne (hdig g hg c hcg) (by decide)
  rcases List.mem_append.mp hc with hc | hc
  · rcases stgChars_chars stg hstg c hc with h | h
    · exact isDig_ne h (by decide)
    · intro he; rw [he] at h; exact absurd h (by decide)
  · rcases pdChars_chars post c hc with h | h | h
    · exact isDig_ne h (by decide)
    · intro he; rw [he] at h; exact absurd h (by decide)
    · subst h; decide

theorem classifySeg_commit (c : List Char) (hcm : commitOk (String.mk c) = true) :
    classifySeg ⟨none, none, none, none⟩ c = ⟨none, some (String.mk c), none, none⟩ := by
  unfold commitOk at hcm
  rw [string_data_mk] at hcm
  simp only [Bool.and_eq_true, Bool.not_eq_true'] at hcm
  obtain ⟨⟨⟨hne, hhex⟩, hnd⟩, hnn⟩ := hcm
  have hdirty : c ≠ ['d', 'i', 'r', 't', 'y'] := by
    intro he; rw [he] at hhex; exact absurd hhex (by decide)
  have hclean : c ≠ ['c', 'l', 'e', 'a', 'n'] := by
    intro he; rw [he] at hhex; exact absurd hhex (by decide)
  have hghex : gHexForm c = false := by
    unfold gHexForm
    split
    · exact absurd (List.all_eq_true.mp hhex 'g' (by simp)) (by decide)
    · rfl
  unfold classifySeg
  rw [if_neg hdirty, if_neg hclean]
  rw [if_neg (by simp [hnd])]
  rw [if_neg (by simp [hnn])]
  rw [if_neg (by simp [hghex])]
  rw [if_pos (by simp [hne, hhex, List.isEmpty_iff])]

theorem parseMeta_nil : parseMeta [] = some ⟨none, none, none, none⟩ := rfl

theorem parseMeta_commit (c : List Char) (hcm : commitOk (String.mk c) = true) :
    parseMeta [c] = some ⟨none, some (String.mk c), none, none⟩ := by
  have hne : c.isEmpty = false := by
    unfold commitOk at hcm
    rw [string_data_mk] at hcm
    simp only [Bool.and_eq_true, Bool.not_eq_true'] at hcm
    exact hcm.1.1.1
  unfold parseMeta
  rw [if_neg (by simp [hne])]
  simp only [List.foldl_cons, List.foldl_nil]
  rw [classifySeg_commit c hcm]

theorem commit_dotfree (c : List Char) (hcm : commitOk (String.mk c) = true) :
    ∀ x ∈ c, x ≠ '.' := by
  unfold commitOk at hcm
  rw [string_data_mk] at hcm
  simp only [Bool.and_eq_true, Bool.not_eq_true'] at hcm
  intro x hx he
  subst he
  exact absurd (List.all_eq_true.mp hcm.1.1.2 '.' hx) (by decide)

theorem parseCore_assembled (ep : Option Nat) (stg : Option (String × Nat))
    (post : Option Nat) (cm : Option (List Char))
    (bgIni : List (List Char)) (bgLast : List Char)
    (hdig : ∀ g ∈ bgIni ++ [bgLast], g ≠ [] ∧ ∀ c ∈ g, isDig c = true)
    (hstg : ∀ p ∈ stg, p.1 = "a" ∨ p.1 = "b" ∨ p.1 = "rc")
    (hcm : ∀ c ∈ cm, commitOk (String.mk c) = true) :
    parseCore (String.mk (interDot (expSegs ep stg post (bgIni ++ [bgLast])) ++
        metaChars cm)) =
      some ⟨String.mk (interDot (bgIni ++ [bgLast])), stg.map Prod.fst,
        stg.map (fun p => ((p.2 : Nat) : Int)),
        (match post with | some p => ((p : Nat) : Int) | none => 0),
        cm.map (fun c => String.mk c), none, none,
        ep.map (fun e => ((e : Nat) : Int))⟩ := by
  have hdig2 : ∀ g ∈ bgIni ++ [bgLast], ∀ c ∈ g, isDig c = true :=
    fun g hg => (hdig g hg).2
  have hsp : splitOnDot (interDot (expSegs ep stg post (bgIni ++ [bgLast]))) =
      expSegs ep stg post (bgIni ++ [bgLast]) :=
    splitOnDot_interDot _ (expSegs_dotfree ep stg post bgIni bgLast hdig2 hstg)
      (expSegs_ne_nil _ _ _ _)
  have hmain := parseMain_expSegs bgIni bgLast hdig ep stg hstg post
  cases cm with
  | none =>
    have hspan := takeWhile_dropWhile_exact (fun c => decide (c ≠ '+'))
      (interDot (expSegs ep stg post (bgIni ++ [bgLast]))) []
      (fun x hx => by
        simp only [decide_eq_true_eq]
        exact expSegs_interDot_no_plus ep stg post bgIni bgLast hdig2 hstg x hx)
      (fun y hy => by cases hy)
    rw [List.append_nil] at hspan
    simp only [parseCore, string_data_mk, metaChars, List.append_nil]
    simp only [hspan.1, hspan.2, hsp, hmain]
    simp only [parseMeta_nil]
    rfl
  | some c =>
    have hc := hcm c rfl
    have hspan := takeWhile_dropWhile_exact (fun c => decide (c ≠ '+'))
      (interDot (expSegs ep stg post (bgIni ++ [bgLast]))) ('+' :: c)
      (fun x hx => by
        simp only [decide_eq_true_eq]
        exact expSegs_interDot_no_plus ep stg post bgIni bgLast hdig2 hstg x hx)
      (fun y hy => by
        simp only [List.head?_cons, Option.some.injEq] at hy
        subst hy
        decide)
    simp only [parseCore, string_data_mk, metaChars]
    simp only [hspan.1, hspan.2, hsp, hmain]
    simp only [splitOnDot_dotfree c (commit_dotfree c hc), parseMeta_commit c hc]
    rfl

theorem data_post : (".post" : String).data = ['.', 'p', 'o', 's', 't'] := rfl

theorem data_dev : (".dev" : String).data = ['.', 'd', 'e', 'v'] := rfl

theorem data_bang : ("!" : String).data = ['!'] := rfl

theorem data_plus : ("+" : String).data = ['+'] := rfl

theorem data_pyStrInt_zero : (pyStrInt (0 : Int)).data = ['0'] := rfl

theorem pep440Build_chars (vb : String) (ep : Option Nat) (stg : Option (String × Nat))
    (post : Option Nat) (cm : Option String) :
    (pep440Build vb (stg.map Prod.fst) (stg.map (fun p => ((p.2 : Nat) : Int)))
        (post.map (fun p => ((p : Nat) : Int))) (post.map (fun _ => (0 : Int)))
        (ep.map (fun e => ((e : Nat) : Int)))
        (some (match cm with | some c => [c] | none => []))).data =
      (epChars ep ++ (vb.data ++ (stgChars stg ++ pdChars post))) ++
        metaChars (cm.map String.data) := by
  obtain _ | e := ep <;> obtain _ | ⟨nm, r⟩ := stg <;> obtain _ | d := post <;>
    obtain _ | c := cm <;>
    simp [pep440Build, string_data_append, pyStrInt_natCast_data, epChars, stgChars,
      pdChars, metaChars, charsOfNat_zero, intercalate_single, data_post, data_dev,
      data_bang, data_plus, data_pyStrInt_zero, List.append_assoc]

theorem roundtrip_core (vb : String) (ep : Option Nat) (stg : Option (String × Nat))
    (post : Option Nat) (cm : Option String)
    (hb : baseOk vb = true)
    (hstg : ∀ p ∈ stg, p.1 = "a" ∨ p.1 = "b" ∨ p.1 = "rc")
    (hcm : ∀ c ∈ cm, commitOk c = true) :
    VersionE.parse (String.mk
        ((epChars ep ++ (vb.data ++ (stgChars stg ++ pdChars post))) ++
          metaChars (cm.map String.data))) =
      ⟨vb, stg.map Prod.fst, stg.map (fun p => ((p.2 : Nat) : Int)),
        (match post with | some p => ((p : Nat) : Int) | none => 0),
        cm, none, none, ep.map (fun e => ((e : Nat) : Int))⟩ := by
  rcases List.eq_nil_or_concat (splitOnDot vb.data) with h | ⟨bgIni, bgLast, hsplit⟩
  · exact absurd h (splitOnDot_ne_nil _)
  rw [List.concat_eq_append] at hsplit
  have hdig : ∀ g ∈ bgIni ++ [bgLast], g ≠ [] ∧ ∀ c ∈ g, isDig c = true := by
    unfold baseOk at hb
    rw [hsplit] at hb
    intro g hg
    have h2 := List.all_eq_true.mp hb g hg
    simp only [Bool.and_eq_true, Bool.not_eq_true'] at h2
    refine ⟨?_, List.all_eq_true.mp h2.2⟩
    intro he
    rw [he] at h2
    simp at h2
  have hcm2 : ∀ c ∈ cm.map String.data, commitOk (String.mk c) = true := by
    intro c hc
    cases cm with
    | none => simp at hc
    | some c0 =>
      have hceq : c = c0.data := by
        have := hc
        simp at this
        exact this.symm
      subst hceq
      rw [string_mk_data]
      exact hcm c0 rfl
  have hchars : (epChars ep ++ (vb.data ++ (stgChars stg ++ pdChars post))) ++
      metaChars (cm.map String.data) =
      interDot (expSegs ep stg post (bgIni ++ [bgLast])) ++
        metaChars (cm.map String.data) := by
    rw [interDot_expSegs ep stg post _ (by simp)]
    rw [← hsplit, interDot_splitOnDot]
  unfold VersionE.parse
  rw [hchars]
  simp only [parseCore_assembled ep stg post (cm.map String.data) bgIni bgLast hdig
    hstg hcm2]
  rw [← hsplit, interDot_splitOnDot, string_mk_data]
  cases cm <;> rfl

theorem serializeE_ok {v : VersionE} {s : String} (h : serializeE v = .ok s) :
    (if v.distance ≤ 0 then
        serializePep440 v.base v.stage v.revision none none v.epoch
          (some (if 0 < v.distance ∧ v.commit.isSome then [v.commit.getD ""] else []))
      else
        serializePep440 v.base v.stage v.revision (some v.distance) (some 0) v.epoch
          (some (if 0 < v.distance ∧ v.commit.isSome then [v.commit.getD ""] else []))) =
      .ok s := by
  simp only [serializeE] at h
  split at h
  · simp at h
  · rename_i out heq
    split at h
    · simp at h
    · exact heq.trans h

theorem serializePep440_ok {base : String} {stage : Option String}
    {revision post dev epoch : Option Int} {metadata : Option (List String)}
    {s : String}
    (h : serializePep440 base stage revision post dev epoch metadata = .ok s) :
    s = pep440Build base stage revision post dev epoch metadata := by
  unfold serializePep440 at h
  have h2 := finishCheck_eq_ok h
  injection h2 with h3
  exact h3.symm

theorem roundtrip_finish (vb : String) (vst : Option String) (vrev : Option Int)
    (vdist : Int) (vcm : Option String) (vep : Option Int) (s : String)
    (ep : Option Nat) (stg : Option (String × Nat)) (post : Option Nat)
    (hb : baseOk vb = true)
    (hstg : ∀ p ∈ stg, p.1 = "a" ∨ p.1 = "b" ∨ p.1 = "rc")
    (hcm : ∀ c ∈ vcm, commitOk c = true)
    (hst1 : vst = stg.map Prod.fst)
    (hst2 : vrev = stg.map (fun p => ((p.2 : Nat) : Int)))
    (hepq : vep = ep.map (fun e => ((e : Nat) : Int)))
    (hdq : vdist = (match post with | some p => ((p : Nat) : Int) | none => 0))
    (hsd : s.data = (epChars ep ++ (vb.data ++ (stgChars stg ++ pdChars post))) ++
      metaChars (vcm.map String.data)) :
    VersionE.parse s = ⟨vb, vst, vrev, vdist, vcm, none, none, vep⟩ := by
  have hsmk : s = String.mk
      ((epChars ep ++ (vb.data ++ (stgChars stg ++ pdChars post))) ++
        metaChars (vcm.map String.data)) :=
    (string_mk_data s).symm.trans (congrArg String.mk hsd)
  rw [hsmk, roundtrip_core vb ep stg post vcm hb hstg hcm, hst1, hst2, hepq, hdq]

theorem serializeE_fields {vb : String} {vst : Option String} {vrev : Option Int}
    {vdist : Int} {vcm : Option String} {vdy : Option Bool} {vtm : Option String}
    {vep : Option Int} {s : String}
    (h : serializeE ⟨vb, vst, vrev, vdist, vcm, vdy, vtm, vep⟩ = .ok s) :
    (if vdist ≤ 0 then
        serializePep440 vb vst vrev none none vep
          (some (if 0 < vdist ∧ vcm.isSome then [vcm.getD ""] else []))
      else
        serializePep440 vb vst vrev (some vdist) (some 0) vep
          (some (if 0 < vdist ∧ vcm.isSome then [vcm.getD ""] else []))) = .ok s :=
  serializeE_ok h

/-- C2: round-trip law.  For every `Version` (with epoch) whose fields carry no
ambiguous metadata — release-grammar base, stage `a`/`b`/`rc` with a
non-negative revision or no stage, non-negative distance, a hex commit only
alongside positive distance, no dirty flag or tagged metadata, non-negative
epoch — parsing the default serialization recovers the version exactly, with
the fields base, stage, revision, distance, commit, dirty, tagged_metadata and
epoch all preserved; and every unparseable input becomes a literal-base
`Version(text)` (the parser is total, so it never raises). -/
theorem version_parse_roundtrip :
    (∀ (v : VersionE) (s : String), unambiguousE v = true → serializeE v = .ok s →
      VersionE.parse s = v) ∧
    (∀ text : String, parseCore text = none →
      VersionE.parse text = VersionE.literal text) := by
  constructor
  · intro v s hv hs
    obtain ⟨vb, vst, vrev, vdist, vcm, vdy, vtm, vep⟩ := v
    simp only [unambiguousE, Bool.and_eq_true] at hv
    obtain ⟨⟨⟨⟨⟨⟨hb, hsr⟩, hd0⟩, hcm⟩, hdy⟩, htm⟩, hep⟩ := hv
    rw [beq_iff_eq] at hdy htm
    subst hdy
    subst htm
    rw [decide_eq_true_eq] at hd0
    have hEq_ep : vep = (vep.map Int.toNat).map (fun e => ((e : Nat) : Int)) := by
      cases vep with
      | none => rfl
      | some e0 =>
        have he0 : (0 : Int) ≤ e0 := by simpa using hep
        simp [Int.toNat_of_nonneg he0]
    cases vst with
    | none =>
      cases vrev with
      | some r => simp at hsr
      | none =>
        cases vcm with
        | some c =>
          have hcm2 : commitOk c = true ∧ 0 < vdist := by
            have h0 : (commitOk c && decide (0 < vdist)) = true := hcm
            simpa using h0
          obtain ⟨hcOk, hdpos⟩ := hcm2
          have h1 := serializeE_fields hs
          rw [if_neg (show ¬vdist ≤ 0 by omega)] at h1
          rw [if_pos (show 0 < vdist ∧ (some c : Option String).isSome = true from
            ⟨hdpos, rfl⟩)] at h1
          rw [show vdist = ((vdist.toNat : Nat) : Int) from
            (Int.toNat_of_nonneg hd0).symm] at h1
          rw [hEq_ep] at h1
          have hsEq := serializePep440_ok h1
          refine roundtrip_finish vb none none vdist (some c) vep s
            (vep.map Int.toNat) none (some vdist.toNat) hb
            (by intro p hp; simp at hp)
            (by intro x hx; simp at hx; subst hx; exact hcOk)
            rfl rfl hEq_ep (by simp [Int.toNat_of_nonneg hd0]) ?_
          rw [hsEq]
          exact pep440Build_chars vb (vep.map Int.toNat) none (some vdist.toNat)
            (some c)
        | none =>
          by_cases hdz : vdist ≤ 0
          · have hd00 : vdist = 0 := by omega
            subst hd00
            have h1 := serializeE_fields hs
            rw [if_pos (show (0 : Int) ≤ 0 from le_refl 0)] at h1
            rw [if_neg (show ¬((0 : Int) < 0 ∧
              (none : Option String).isSome = true) by simp)] at h1
            rw [hEq_ep] at h1
            have hsEq := serializePep440_ok h1
            refine roundtrip_finish vb none none 0 none vep s
              (vep.map Int.toNat) none none hb
              (by intro p hp; simp at hp)
              (by intro x hx; simp at hx)
              rfl rfl hEq_ep rfl ?_
            rw [hsEq]
            exact pep440Build_chars vb (vep.map Int.toNat) none none none
          · have h1 := serializeE_fields hs
            rw [if_neg hdz] at h1
            rw [if_neg (show ¬(0 < vdist ∧
              (none : Option String).isSome = true) by simp)] at h1
            rw [show vdist = ((vdist.toNat : Nat) : Int) from
              (Int.toNat_of_nonneg hd0).symm] at h1
            rw [hEq_ep] at h1
            have hsEq := serializePep440_ok h1
            refine roundtrip_finish vb none none vdist none vep s
              (vep.map Int.toNat) none (some vdist.toNat) hb
              (by intro p hp; simp at hp)
              (by intro x hx; simp at hx)
              rfl rfl hEq_ep (by simp [Int.toNat_of_nonneg hd0]) ?_
            rw [hsEq]
            exact pep440Build_chars vb (vep.map Int.toNat) none (some vdist.toNat)
              none
    | some nm =>
      cases vrev with
      | none => simp at hsr
      | some r =>
        have hsr2 : (nm = "a" ∨ nm = "b" ∨ nm = "rc") ∧ 0 ≤ r := by
          have h0 : (decide (nm = "a" ∨ nm = "b" ∨ nm = "rc") &&
            decide (0 ≤ r)) = true := hsr
          simpa using h0
        obtain ⟨hnm, hr0⟩ := hsr2
        have hstg2 : ∀ p ∈ (some (nm, r.toNat) : Option (String × Nat)),
            p.1 = "a" ∨ p.1 = "b" ∨ p.1 = "rc" := by
          intro p hp
          simp at hp
          subst hp
          exact hnm
        have hst2 : (some r : Option Int) =
            (some (nm, r.toNat) : Option (String × Nat)).map
              (fun p => ((p.2 : Nat) : Int)) := by
          simp [Int.toNat_of_nonneg hr0]
        cases vcm with
        | some c =>
          have hcm2 : commitOk c = true ∧ 0 < vdist := by
            have h0 : (commitOk c && decide (0 < vdist)) = true := hcm
            simpa using h0
          obtain ⟨hcOk, hdpos⟩ := hcm2
          have h1 := serializeE_fields hs
          rw [if_neg (show ¬vdist ≤ 0 by omega)] at h1
          rw [if_pos (show 0 < vdist ∧ (some c : Option String).isSome = true from
            ⟨hdpos, rfl⟩)] at h1
          rw [show r = ((r.toNat : Nat) : Int) from
            (Int.toNat_of_nonneg hr0).symm] at h1
          rw [show vdist = ((vdist.toNat : Nat) : Int) from
            (Int.toNat_of_nonneg hd0).symm] at h1
          rw [hEq_ep] at h1
          have hsEq := serializePep440_ok h1
          refine roundtrip_finish vb (some nm) (some r) vdist (some c) vep s
            (vep.map Int.toNat) (some (nm, r.toNat)) (some vdist.toNat) hb
            hstg2
            (by intro x hx; simp at hx; subst hx; exact hcOk)
            rfl hst2 hEq_ep (by simp [Int.toNat_of_nonneg hd0]) ?_
          rw [hsEq]
          exact pep440Build_chars vb (vep.map Int.toNat) (some (nm, r.toNat))
            (some vdist.toNat) (some c)
        | none =>
          by_cases hdz : vdist ≤ 0
          · have hd00 : vdist = 0 := by omega
            subst hd00
            have h1 := serializeE_fields hs
            rw [if_pos (show (0 : Int) ≤ 0 from le_refl 0)] at h1
            rw [if_neg (show ¬((0 : Int) < 0 ∧
              (none : Option String).isSome = true) by simp)] at h1
            rw [show r = ((r.toNat : Nat) : Int) from
              (Int.toNat_of_nonneg hr0).symm] at h1
            rw [hEq_ep] at h1
            have hsEq := serializePep440_ok h1
            refine roundtrip_finish vb (some nm) (some r) 0 none vep s
              (vep.map Int.toNat) (some (nm, r.toNat)) none hb
              hstg2
              (by intro x hx; simp at hx)
              rfl hst2 hEq_ep rfl ?_
            rw [hsEq]
            exact pep440Build_chars vb (vep.map Int.toNat) (some (nm, r.toNat))
              none none
          · have h1 := serializeE_fields hs
            rw [if_neg hdz] at h1
            rw [if_neg (show ¬(0 < vdist ∧
              (none : Option String).isSome = true) by simp)] at h1
            rw [show r = ((r.toNat : Nat) : Int) from
              (Int.toNat_of_nonneg hr0).symm] at h1
            rw [show vdist = ((vdist.toNat : Nat) : Int) from
              (Int.toNat_of_nonneg hd0).symm] at h1
            rw [hEq_ep] at h1
            have hsEq := serializePep440_ok h1
            refine roundtrip_finish vb (some nm) (some r) vdist none vep s
              (vep.map Int.toNat) (some (nm, r.toNat)) (some vdist.toNat) hb
              hstg2
              (by intro x hx; simp at hx)
              rfl hst2 hEq_ep (by simp [Int.toNat_of_nonneg hd0]) ?_
            rw [hsEq]
            exact pep440Build_chars vb (vep.map Int.toNat) (some (nm, r.toNat))
              (some vdist.toNat) none
  · intro text h
    unfold VersionE.parse
    rw [h]

/-- Witness for C2 at the concrete version `2!0.1.0a1.post3.dev0+abc` and the
unparseable input `bogus`. -/
theorem version_parse_roundtrip_witness :
    VersionE.parse "2!0.1.0a1.post3.dev0+abc" =
        ⟨"0.1.0", some "a", some 1, 3, some "abc", none, none, some 2⟩ ∧
      VersionE.parse "bogus" = VersionE.literal "bogus" :=
  ⟨version_parse_roundtrip.1
      ⟨"0.1.0", some "a", some 1, 3, some "abc", none, none, some 2⟩
      "2!0.1.0a1.post3.dev0+abc" (by rfl) (by rfl),
    version_parse_roundtrip.2 "bogus" (by rfl)⟩
